import Mathlib

/-!
Verification of the `an_ok_bstree` binary-search-tree library.

The crate contains two parallel engines over the same data layout:
a purely recursive one (`src/bstree_recursion`) and an explicit-stack /
loop-based one (`src/bstree_no_recursion`).  Both are embedded here over a
single inductive tree type: `Tree.nil` models an absent link
(`Link<K,V> = Option<Box<Node<K,V>>>` being `None`) and `Tree.node` models an
owned `Node { key, value, left, right }`.  Rust's `PartialOrd` keys are
modelled by a linear order, matching the spec's stipulation that incomparable
keys are an unchecked precondition.  In-place mutation through `&mut`
references is rendered as pure path-rebuilding recursion, and the loops of
the no-recursion engine are rendered as explicit-state recursion (cursor,
explicit stack list, candidate and `prev` registers), mirroring the Rust
control flow case by case.
-/

set_option linter.unusedVariables false
set_option linter.unusedSectionVars false

namespace AnOkBstree

/-- Binary tree of key-value nodes; `nil` is the absent child. -/
inductive Tree (K V : Type) where
  | nil : Tree K V
  | node : K → V → Tree K V → Tree K V → Tree K V
deriving DecidableEq

variable {K V : Type} [LinearOrder K]

/-- Number of nodes of a tree. -/
def size : Tree K V → Nat
  | .nil => 0
  | .node _ _ l r => size l + size r + 1

/-- Key-value pairs of the tree in symmetric (in-order) order. -/
def inorderPairs : Tree K V → List (K × V)
  | .nil => []
  | .node k v l r => inorderPairs l ++ (k, v) :: inorderPairs r

/-- Root key, if any. -/
def rootKeyO : Tree K V → Option K
  | .nil => none
  | .node k _ _ _ => some k

/-- Root key-value pair, if any. -/
def rootPairO : Tree K V → Option (K × V)
  | .nil => none
  | .node k v _ _ => some (k, v)

/-- Left child (`nil` for the empty tree). -/
def leftT : Tree K V → Tree K V
  | .nil => .nil
  | .node _ _ l _ => l

/-- Right child (`nil` for the empty tree). -/
def rightT : Tree K V → Tree K V
  | .nil => .nil
  | .node _ _ _ r => r

/-- Models `BSTree::is_empty`: `self.root.is_none()`. -/
def is_empty : Tree K V → Bool
  | .nil => true
  | .node _ _ _ _ => false

/-- Bounded quantification over all keys of a tree. -/
def allB (p : K → Bool) : Tree K V → Bool
  | .nil => true
  | .node k _ l r => p k && allB p l && allB p r

/-- The binary-search-tree invariant, as a decidable predicate:
every key of the left subtree is smaller and every key of the right
subtree is larger than the node key, recursively. -/
def BSTb : Tree K V → Bool
  | .nil => true
  | .node k _ l r =>
      allB (fun x => decide (x < k)) l && allB (fun x => decide (k < x)) r &&
      BSTb l && BSTb r

/-- Subtree rooted at the node holding `k`, found by binary search
(`nil` when `k` is absent).  Ghost helper used to speak about the
"original subtree of `k`" in the subtree-excision claims. -/
def find_node : Tree K V → K → Tree K V
  | .nil, _ => .nil
  | .node key val l r, k =>
      if key < k then find_node r k
      else if k < key then find_node l k
      else .node key val l r

/-- Models `Option` equality on `Option<&Box<Node>>` as used by the
no-recursion postorder traversal: `Node`'s `PartialEq` compares keys only. -/
def keyEqT : Tree K V → Tree K V → Bool
  | .nil, .nil => true
  | .node a _ _ _, .node b _ _ _ => decide (a = b)
  | _, _ => false

/-- Queue insertion used by the level-order traversals: a child is
enqueued only when the link is `Some`. -/
def enq : Tree K V → List (Tree K V)
  | .nil => []
  | .node k v l r => [.node k v l r]

namespace Rec

/-- Models `bstree_recursion`'s `Node::insert` together with the `BSTree::insert`
wrapper (empty root becomes a fresh node; `insert` into a missing child
attaches a fresh leaf, which is the `nil` case of the recursion). -/
def insert : Tree K V → K → V → Tree K V
  | .nil, k, v => .node k v .nil .nil
  | .node key val l r, k, v =>
      if key > k then .node key val (insert l k v) r
      else if key < k then .node key val l (insert r k v)
      else .node key v l r

/-- Models `Node::search_pair` together with the `BSTree::get_pair` wrapper. -/
def search_pair : Tree K V → K → Option (K × V)
  | .nil, _ => none
  | .node key val l r, k =>
      if key < k then search_pair r k
      else if key > k then search_pair l k
      else some (key, val)

/-- Models `BSTree::get_pair`. -/
def get_pair (t : Tree K V) (k : K) : Option (K × V) := search_pair t k

/-- Models `Node::search` / `BSTree::get`. -/
def get (t : Tree K V) (k : K) : Option V := (search_pair t k).map Prod.snd

/-- Models `BSTree::get_or`. -/
def get_or (t : Tree K V) (k : K) (d : V) : V := (get t k).getD d

/-- Models `BSTree::contains`. -/
def contains (t : Tree K V) (k : K) : Bool := (get t k).isSome

/-- Models `Node::min_pair` together with the `BSTree::min_pair` wrapper
(`None` only for the empty tree; otherwise descend left). -/
def min_pair : Tree K V → Option (K × V)
  | .nil => none
  | .node key val l _ => some ((min_pair l).getD (key, val))

/-- Models `Node::max_pair` together with the `BSTree::max_pair` wrapper. -/
def max_pair : Tree K V → Option (K × V)
  | .nil => none
  | .node key val _ r => some ((max_pair r).getD (key, val))

/-- Models `Node::successor` / `BSTree::successor`. -/
def successor : Tree K V → K → Option (K × V)
  | .nil, _ => none
  | .node key val l r, k =>
      if key > k then (successor l k).or (some (key, val))
      else if key < k then successor r k
      else min_pair r

/-- Models `Node::predecessor` / `BSTree::predecessor`. -/
def predecessor : Tree K V → K → Option (K × V)
  | .nil, _ => none
  | .node key val l r, k =>
      if key < k then (predecessor r k).or (some (key, val))
      else if key > k then predecessor l k
      else max_pair l

/-- Models `Node::remove_min` of the recursive engine, on the four fields of
the node: returns the tree with its minimum node spliced out, and that
minimum node's key-value pair (the returned `Box<Node>` has both children
taken, so only its key and value are observable). -/
def remove_min : K → V → Tree K V → Tree K V → Tree K V × (K × V)
  | key, val, .nil, r => (r, (key, val))
  | key, val, .node lk lv ll lr, r =>
      (.node key val (remove_min lk lv ll lr).1 r, (remove_min lk lv ll lr).2)

/-- Models `Node::combine_two_subtrees` of the recursive engine:
the minimum of the right subtree becomes the new root. -/
def combine_two_subtrees (lk : K) (lv : V) (ll lr : Tree K V)
    (rk : K) (rv : V) (rl rr : Tree K V) : Tree K V :=
  .node (remove_min rk rv rl rr).2.1 (remove_min rk rv rl rr).2.2
    (.node lk lv ll lr) (remove_min rk rv rl rr).1

/-- Models `Node::delete_root` of the recursive engine (the three standard
BST removal cases on `(left.take(), right.take())`). -/
def delete_root (key : K) (val : V) : Tree K V → Tree K V → Tree K V
  | .nil, .nil => .nil
  | .node lk lv ll lr, .nil => .node lk lv ll lr
  | .nil, .node rk rv rl rr => .node rk rv rl rr
  | .node lk lv ll lr, .node rk rv rl rr =>
      combine_two_subtrees lk lv ll lr rk rv rl rr

/-- Models `Node::delete` together with the `BSTree::delete` wrapper.
When the child in the search direction is `None` the Rust code falls through
and returns the node unchanged, which coincides with recursing into `nil`. -/
def delete : Tree K V → K → Tree K V
  | .nil, _ => .nil
  | .node key val l r, k =>
      if key < k then .node key val l (delete r k)
      else if key > k then .node key val (delete l k) r
      else delete_root key val l r

/-- Models `Node::delete_tree` of the recursive engine, which is only ever
invoked on a node whose own key differs from the target: it looks ahead at
the child in the search direction and severs the link when the child's key
matches. -/
def Node.delete_tree : Tree K V → K → Tree K V
  | .nil, _ => .nil
  | .node key val l r, k =>
      if key < k then
        match r with
        | .nil => .node key val l r
        | .node rk rv rl rr =>
            if rk = k then .node key val l .nil
            else .node key val l (Node.delete_tree (.node rk rv rl rr) k)
      else if key > k then
        match l with
        | .nil => .node key val l r
        | .node lk lv ll lr =>
            if lk = k then .node key val .nil r
            else .node key val (Node.delete_tree (.node lk lv ll lr) k) r
      else .node key val l r

/-- Models `BSTree::delete_tree` of the recursive engine: a matching root
empties the tree, otherwise `Node::delete_tree` severs the branch. -/
def delete_tree (t : Tree K V) (k : K) : Tree K V :=
  match t with
  | .nil => .nil
  | .node key val l r =>
      if key = k then .nil else Node.delete_tree (.node key val l r) k

/-- Models `Node::remove_tree` of the recursive engine: first component is
the mutated tree, second is the excised branch (`nil` for `None`). -/
def Node.remove_tree : Tree K V → K → Tree K V × Tree K V
  | .nil, _ => (.nil, .nil)
  | .node key val l r, k =>
      if key < k then
        match r with
        | .nil => (.node key val l r, .nil)
        | .node rk rv rl rr =>
            if rk = k then (.node key val l .nil, .node rk rv rl rr)
            else
              (.node key val l (Node.remove_tree (.node rk rv rl rr) k).1,
               (Node.remove_tree (.node rk rv rl rr) k).2)
      else if key > k then
        match l with
        | .nil => (.node key val l r, .nil)
        | .node lk lv ll lr =>
            if lk = k then (.node key val .nil r, .node lk lv ll lr)
            else
              (.node key val (Node.remove_tree (.node lk lv ll lr) k).1 r,
               (Node.remove_tree (.node lk lv ll lr) k).2)
      else (.node key val l r, .nil)

/-- Models `BSTree::remove_tree` of the recursive engine: first component is
what remains in the source tree, second is the returned tree. -/
def remove_tree (t : Tree K V) (k : K) : Tree K V × Tree K V :=
  match t with
  | .nil => (.nil, .nil)
  | .node key val l r =>
      if key = k then (.nil, .node key val l r)
      else Node.remove_tree (.node key val l r) k

/-- Models `Node::prev_order` (preorder key collection). -/
def prev_order : Tree K V → List K
  | .nil => []
  | .node k _ l r => k :: (prev_order l ++ prev_order r)

/-- Models `Node::in_order` (inorder key collection). -/
def in_order : Tree K V → List K
  | .nil => []
  | .node k _ l r => in_order l ++ k :: in_order r

/-- Models `Node::post_order` (postorder key collection). -/
def post_order : Tree K V → List K
  | .nil => []
  | .node k _ l r => post_order l ++ post_order r ++ [k]

end Rec

/-- Models the queue-based breadth-first traversal loop.  Both engines
contain the textually identical `level_order` implementation (a `VecDeque`
of pending nodes, children enqueued left before right when present). -/
def levelOrderAux : List (Tree K V) → List K
  | [] => []
  | .nil :: rest => levelOrderAux rest
  | .node k _ l r :: rest => k :: levelOrderAux (rest ++ enq l ++ enq r)
termination_by q => 2 * (q.map size).sum + q.length
decreasing_by
  · simp only [List.map_cons, List.sum_cons, size, List.length_cons]
    omega
  · simp only [List.map_cons, List.sum_cons, size, List.length_cons,
      List.map_append, List.sum_append, List.length_append]
    have hl : ((enq l).map size).sum = size l ∧ (enq l).length ≤ 1 := by
      cases l <;> simp [enq, size]
    have hr : ((enq r).map size).sum = size r ∧ (enq r).length ≤ 1 := by
      cases r <;> simp [enq, size]
    omega

/-- Models `level_order` of both engines. -/
def level_order (t : Tree K V) : List K := levelOrderAux (enq t)

namespace Rec

/-- Models the materialization shared by the four `*_iter` methods: traverse
the keys, then re-resolve each key through `get_pair`, skipping (dead branch)
any key that fails to resolve; the resulting queue feeds `TraverseIter`. -/
def traverse_pairs (t : Tree K V) (ks : List K) : List (K × V) :=
  ks.filterMap (fun k => get_pair t k)

/-- Models `BSTree::preorder_iter` of the recursive engine, as the list of
pairs the returned `TraverseIter` yields. -/
def preorder_iter (t : Tree K V) : List (K × V) := traverse_pairs t (prev_order t)

/-- Models `BSTree::inorder_iter` of the recursive engine. -/
def inorder_iter (t : Tree K V) : List (K × V) := traverse_pairs t (in_order t)

/-- Models `BSTree::postorder_iter` of the recursive engine. -/
def postorder_iter (t : Tree K V) : List (K × V) := traverse_pairs t (post_order t)

/-- Models `BSTree::levelorder_iter` of the recursive engine. -/
def levelorder_iter (t : Tree K V) : List (K × V) := traverse_pairs t (level_order t)

end Rec

namespace Iter

/-- Models `bstree_no_recursion`'s `BSTree::insert` loop: the cursor walks
down comparing `key` to the current node, attaching a fresh leaf at the
first missing child in the search direction; descending through a `&mut`
cursor and mutating in place is rendered as rebuilding the path. -/
def insert : Tree K V → K → V → Tree K V
  | .nil, k, v => .node k v .nil .nil
  | .node key val l r, k, v =>
      if k < key then
        match l with
        | .nil => .node key val (.node k v .nil .nil) r
        | .node lk lv ll lr => .node key val (insert (.node lk lv ll lr) k v) r
      else if k > key then
        match r with
        | .nil => .node key val l (.node k v .nil .nil)
        | .node rk rv rl rr => .node key val l (insert (.node rk rv rl rr) k v)
      else .node key v l r

/-- Models `BSTree::get_pair` of the no-recursion engine (a pure descent loop). -/
def get_pair : Tree K V → K → Option (K × V)
  | .nil, _ => none
  | .node key val l r, k =>
      if k < key then get_pair l k
      else if k > key then get_pair r k
      else some (key, val)

/-- Models `BSTree::get` of the no-recursion engine. -/
def get (t : Tree K V) (k : K) : Option V := (get_pair t k).map Prod.snd

/-- Models `BSTree::get_or` of the no-recursion engine. -/
def get_or (t : Tree K V) (k : K) (d : V) : V := (get t k).getD d

/-- Models `BSTree::contains` of the no-recursion engine. -/
def contains (t : Tree K V) (k : K) : Bool := (get t k).isSome

/-- Models `BSTree::max_pair` of the no-recursion engine: descend right
until the right child is missing. -/
def max_pair : Tree K V → Option (K × V)
  | .nil => none
  | .node key val _ r =>
      match r with
      | .nil => some (key, val)
      | .node rk rv rl rr => max_pair (.node rk rv rl rr)

/-- Models `BSTree::min_pair` of the no-recursion engine. -/
def min_pair : Tree K V → Option (K × V)
  | .nil => none
  | .node key val l _ =>
      match l with
      | .nil => some (key, val)
      | .node lk lv ll lr => min_pair (.node lk lv ll lr)

/-- Models the `BSTree::successor` loop of the no-recursion engine: the
`successor` register remembers the last node whose key exceeded the target. -/
def succLoop : Tree K V → Option (K × V) → K → Option (K × V)
  | .nil, cand, _ => cand
  | .node key val l r, cand, k =>
      if key > k then succLoop l (some (key, val)) k
      else succLoop r cand k

/-- Models `BSTree::successor` of the no-recursion engine. -/
def successor (t : Tree K V) (k : K) : Option (K × V) := succLoop t none k

/-- Models the `BSTree::predecessor` loop of the no-recursion engine. -/
def predLoop : Tree K V → Option (K × V) → K → Option (K × V)
  | .nil, cand, _ => cand
  | .node key val l r, cand, k =>
      if key < k then predLoop r (some (key, val)) k
      else predLoop l cand k

/-- Models `BSTree::predecessor` of the no-recursion engine. -/
def predecessor (t : Tree K V) (k : K) : Option (K × V) := predLoop t none k

/-- Models `Node::remove_min` of the no-recursion engine: the cursor stops at
the node whose left child has no left child and splices that child out;
when the entry node has no left child at all, the node itself is the minimum. -/
def remove_min : K → V → Tree K V → Tree K V → Tree K V × (K × V)
  | key, val, .nil, r => (r, (key, val))
  | key, val, .node lk lv ll lr, r =>
      match ll with
      | .nil => (.node key val lr r, (lk, lv))
      | .node _ _ _ _ =>
          (.node key val (remove_min lk lv ll lr).1 r, (remove_min lk lv ll lr).2)

/-- Models `Node::combine_two_subtrees` of the no-recursion engine. -/
def combine_two_subtrees (lk : K) (lv : V) (ll lr : Tree K V)
    (rk : K) (rv : V) (rl rr : Tree K V) : Tree K V :=
  .node (remove_min rk rv rl rr).2.1 (remove_min rk rv rl rr).2.2
    (.node lk lv ll lr) (remove_min rk rv rl rr).1

/-- Models `Node::delete_root` of the no-recursion engine. -/
def delete_root (key : K) (val : V) : Tree K V → Tree K V → Tree K V
  | .nil, .nil => .nil
  | .node lk lv ll lr, .nil => .node lk lv ll lr
  | .nil, .node rk rv rl rr => .node rk rv rl rr
  | .node lk lv ll lr, .node rk rv rl rr =>
      combine_two_subtrees lk lv ll lr rk rv rl rr

/-- Models the descent loop of `BSTree::delete` of the no-recursion engine,
entered with a cursor whose key differs from the target: it looks ahead at
the child in the search direction and applies `delete_root` to it when its
key matches; a missing child ends the loop with the tree unchanged. -/
def deleteLoop : Tree K V → K → Tree K V
  | .nil, _ => .nil
  | .node key val l r, k =>
      if k < key then
        match l with
        | .nil => .node key val l r
        | .node lk lv ll lr =>
            if lk = k then .node key val (delete_root lk lv ll lr) r
            else .node key val (deleteLoop (.node lk lv ll lr) k) r
      else if k > key then
        match r with
        | .nil => .node key val l r
        | .node rk rv rl rr =>
            if rk = k then .node key val l (delete_root rk rv rl rr)
            else .node key val l (deleteLoop (.node rk rv rl rr) k)
      else .node key val l r

/-- Models `BSTree::delete` of the no-recursion engine: a matching root is
handled by `delete_root`, otherwise the descent loop runs. -/
def delete (t : Tree K V) (k : K) : Tree K V :=
  match t with
  | .nil => .nil
  | .node key val l r =>
      if key = k then delete_root key val l r
      else deleteLoop (.node key val l r) k

/-- Models the descent loop of `BSTree::delete_tree` of the no-recursion
engine (look ahead at the child, severing the link on a key match). -/
def deleteTreeLoop : Tree K V → K → Tree K V
  | .nil, _ => .nil
  | .node key val l r, k =>
      if k < key then
        match l with
        | .nil => .node key val l r
        | .node lk lv ll lr =>
            if lk = k then .node key val .nil r
            else .node key val (deleteTreeLoop (.node lk lv ll lr) k) r
      else if k > key then
        match r with
        | .nil => .node key val l r
        | .node rk rv rl rr =>
            if rk = k then .node key val l .nil
            else .node key val l (deleteTreeLoop (.node rk rv rl rr) k)
      else .node key val l r

/-- Models `BSTree::delete_tree` of the no-recursion engine. -/
def delete_tree (t : Tree K V) (k : K) : Tree K V :=
  match t with
  | .nil => .nil
  | .node key val l r =>
      if key = k then .nil else deleteTreeLoop (.node key val l r) k

/-- Models the descent loop of `BSTree::remove_tree` of the no-recursion
engine: first component is the mutated tree, second the excised branch. -/
def removeTreeLoop : Tree K V → K → Tree K V × Tree K V
  | .nil, _ => (.nil, .nil)
  | .node key val l r, k =>
      if k < key then
        match l with
        | .nil => (.node key val l r, .nil)
        | .node lk lv ll lr =>
            if lk = k then (.node key val .nil r, .node lk lv ll lr)
            else
              (.node key val (removeTreeLoop (.node lk lv ll lr) k).1 r,
               (removeTreeLoop (.node lk lv ll lr) k).2)
      else if k > key then
        match r with
        | .nil => (.node key val l r, .nil)
        | .node rk rv rl rr =>
            if rk = k then (.node key val l .nil, .node rk rv rl rr)
            else
              (.node key val l (removeTreeLoop (.node rk rv rl rr) k).1,
               (removeTreeLoop (.node rk rv rl rr) k).2)
      else (.node key val l r, .nil)

/-- Models `BSTree::remove_tree` of the no-recursion engine. -/
def remove_tree (t : Tree K V) (k : K) : Tree K V × Tree K V :=
  match t with
  | .nil => (.nil, .nil)
  | .node key val l r =>
      if key = k then (.nil, .node key val l r)
      else removeTreeLoop (.node key val l r) k

/-- Models the explicit-stack preorder loop (`prev_order` of the
no-recursion engine): the inner loop descends left pushing visited nodes;
when the cursor is exhausted the last pushed node is popped and the cursor
moves to its right child.  The stack list's head is the stack top. -/
def prevOrderLoop : Tree K V → List (Tree K V) → List K
  | .node k v l r, stack => k :: prevOrderLoop l (.node k v l r :: stack)
  | .nil, [] => []
  | .nil, top :: rest => prevOrderLoop (rightT top) rest
termination_by cur stack => 2 * size cur + (stack.map fun s => 2 * size (rightT s) + 1).sum
decreasing_by
  · simp only [List.map_cons, List.sum_cons, size, rightT]
    omega
  · simp only [List.map_cons, List.sum_cons, size]
    omega

/-- Models `BSTree::prev_order` of the no-recursion engine. -/
def prev_order (t : Tree K V) : List K := prevOrderLoop t []

/-- Models the explicit-stack inorder loop (`in_order` of the no-recursion
engine): a popped node emits its key before the cursor moves to its right
child. -/
def inOrderLoop : Tree K V → List (Tree K V) → List K
  | .node k v l r, stack => inOrderLoop l (.node k v l r :: stack)
  | .nil, [] => []
  | .nil, .nil :: rest => inOrderLoop .nil rest
  | .nil, .node k v l r :: rest => k :: inOrderLoop r rest
termination_by cur stack => 2 * size cur + (stack.map fun s => 2 * size (rightT s) + 1).sum
decreasing_by
  · simp only [List.map_cons, List.sum_cons, size, rightT]
    omega
  · simp only [List.map_cons, List.sum_cons, size, rightT]
    omega
  · simp only [List.map_cons, List.sum_cons, size, rightT]
    omega

/-- Models `BSTree::in_order` of the no-recursion engine. -/
def in_order (t : Tree K V) : List K := inOrderLoop t []

/-- Models the explicit-stack postorder loop (`post_order` of the
no-recursion engine).  The loop peeks at the stack top; it pops and emits
the key when the top's right child is absent or equal (by the key-only
`PartialEq` of `Node`, see `keyEqT`) to the previously emitted node, and
otherwise moves the cursor to that right child.  The `prev`-guarded
re-descent defeats any simple structural measure, so the loop carries a
step budget (`fuel`); `postCost` below is an exact step count, shown
sufficient in the equivalence lemma. -/
def postLoop : Nat → Tree K V → List (Tree K V) → Tree K V → List K
  | 0, _, _, _ => []
  | fuel + 1, .node k v l r, stack, prev => postLoop fuel l (.node k v l r :: stack) prev
  | _ + 1, .nil, [], _ => []
  | _ + 1, .nil, .nil :: _, _ => []
  | fuel + 1, .nil, .node tk tv tl tr :: rest, prev =>
      match tr with
      | .nil => tk :: postLoop fuel .nil rest (.node tk tv tl tr)
      | .node rk rv rl rr =>
          if keyEqT (.node rk rv rl rr) prev then
            tk :: postLoop fuel .nil rest (.node tk tv tl tr)
          else postLoop fuel (.node rk rv rl rr) (.node tk tv tl tr :: rest) prev

/-- Exact number of loop iterations the postorder loop spends on a subtree:
each node is descended into once and popped once, plus one extra peek for a
node with a right child. -/
def postCost : Tree K V → Nat
  | .nil => 0
  | .node _ _ l r =>
      postCost l + postCost r + 2 + (match r with | .nil => 0 | .node _ _ _ _ => 1)

/-- Models `BSTree::post_order` of the no-recursion engine. -/
def post_order (t : Tree K V) : List K := postLoop (postCost t) t [] .nil

/-- Models `BSTree::level_order` of the no-recursion engine (textually the
same queue-based code as the recursive engine's). -/
def level_order (t : Tree K V) : List K := levelOrderAux (enq t)

/-- Models the materialization shared by the four `*_iter` methods of the
no-recursion engine. -/
def traverse_pairs (t : Tree K V) (ks : List K) : List (K × V) :=
  ks.filterMap (fun k => get_pair t k)

/-- Models `BSTree::preorder_iter` of the no-recursion engine. -/
def preorder_iter (t : Tree K V) : List (K × V) := traverse_pairs t (prev_order t)

/-- Models `BSTree::inorder_iter` of the no-recursion engine. -/
def inorder_iter (t : Tree K V) : List (K × V) := traverse_pairs t (in_order t)

/-- Models `BSTree::postorder_iter` of the no-recursion engine. -/
def postorder_iter (t : Tree K V) : List (K × V) := traverse_pairs t (post_order t)

/-- Models `BSTree::levelorder_iter` of the no-recursion engine. -/
def levelorder_iter (t : Tree K V) : List (K × V) := traverse_pairs t (level_order t)

end Iter

/-- Mutating operations of the public interface, used to speak about every
tree reachable from `new()` by a sequence of operations. -/
inductive Op (K V : Type) where
  | ins : K → V → Op K V
  | del : K → Op K V
  | delTree : K → Op K V
  | rmTree : K → Op K V

/-- One step of the recursive engine (`remove_tree` keeps the source tree). -/
def applyRec (t : Tree K V) : Op K V → Tree K V
  | .ins k v => Rec.insert t k v
  | .del k => Rec.delete t k
  | .delTree k => Rec.delete_tree t k
  | .rmTree k => (Rec.remove_tree t k).1

/-- One step of the no-recursion engine. -/
def applyIter (t : Tree K V) : Op K V → Tree K V
  | .ins k v => Iter.insert t k v
  | .del k => Iter.delete t k
  | .delTree k => Iter.delete_tree t k
  | .rmTree k => (Iter.remove_tree t k).1

/-- Tree reached by the recursive engine from `new()` after a sequence of
operations. -/
def runRec (ops : List (Op K V)) : Tree K V := ops.foldl applyRec .nil

/-- Tree reached by the no-recursion engine from `new()` after a sequence of
operations. -/
def runIter (ops : List (Op K V)) : Tree K V := ops.foldl applyIter .nil

/-! ### Basic facts about keys and the invariant -/

theorem in_order_eq_pairs_fst (t : Tree K V) :
    Rec.in_order t = (inorderPairs t).map Prod.fst := by
  induction t with
  | nil => rfl
  | node k v l r ihl ihr => simp [Rec.in_order, inorderPairs, ihl, ihr]

theorem allB_iff (p : K → Bool) (t : Tree K V) :
    allB p t = true ↔ ∀ x ∈ Rec.in_order t, p x = true := by
  induction t with
  | nil => simp [allB, Rec.in_order]
  | node k v l r ihl ihr =>
      simp only [allB, Bool.and_eq_true, ihl, ihr, Rec.in_order,
        List.mem_append, List.mem_cons]
      constructor
      · rintro ⟨⟨hk, hl⟩, hr⟩ x hx
        rcases hx with hx | hx | hx
        · exact hl x hx
        · exact hx ▸ hk
        · exact hr x hx
      · intro h
        exact ⟨⟨h k (Or.inr (Or.inl rfl)), fun x hx => h x (Or.inl hx)⟩,
          fun x hx => h x (Or.inr (Or.inr hx))⟩

theorem bst_node_iff (k : K) (v : V) (l r : Tree K V) :
    BSTb (Tree.node k v l r) = true ↔
      (∀ x ∈ Rec.in_order l, x < k) ∧ (∀ x ∈ Rec.in_order r, k < x) ∧
      BSTb l = true ∧ BSTb r = true := by
  simp [BSTb, Bool.and_eq_true, allB_iff, and_assoc]

theorem BSTb_iff_pairwise (t : Tree K V) :
    BSTb t = true ↔ List.Pairwise (· < ·) (Rec.in_order t) := by
  induction t with
  | nil => simp [BSTb, Rec.in_order]
  | node k v l r ihl ihr =>
      rw [bst_node_iff, ihl, ihr]
      simp only [Rec.in_order, List.pairwise_append, List.pairwise_cons,
        List.mem_cons]
      constructor
      · rintro ⟨hl, hr, pl, pr⟩
        exact ⟨pl, ⟨fun x hx => hr x hx, pr⟩, by
          intro a ha b hb
          rcases hb with rfl | hb
          · exact hl a ha
          · exact lt_trans (hl a ha) (hr b hb)⟩
      · rintro ⟨pl, ⟨hr, pr⟩, hcross⟩
        refine ⟨fun x hx => hcross x hx k (Or.inl rfl), hr, pl, pr⟩

theorem nodup_in_order (t : Tree K V) (h : BSTb t = true) :
    (Rec.in_order t).Nodup := by
  exact ((BSTb_iff_pairwise t).1 h).imp ne_of_lt

theorem search_pair_fst (t : Tree K V) (k : K) (p : K × V)
    (h : Rec.search_pair t k = some p) : p.1 = k := by
  induction t with
  | nil => simp [Rec.search_pair] at h
  | node key val l r ihl ihr =>
      rw [Rec.search_pair] at h
      split_ifs at h with h1 h2
      · exact ihr h
      · exact ihl h
      · cases h
        exact le_antisymm (not_lt.1 h2) (not_lt.1 h1)

theorem search_pair_mem (t : Tree K V) (k : K) (p : K × V)
    (h : Rec.search_pair t k = some p) : p ∈ inorderPairs t := by
  induction t with
  | nil => simp [Rec.search_pair] at h
  | node key val l r ihl ihr =>
      rw [Rec.search_pair] at h
      rw [inorderPairs]
      split_ifs at h with h1 h2
      · exact List.mem_append_right _ (List.mem_cons_of_mem _ (ihr h))
      · exact List.mem_append_left _ (ihl h)
      · cases h
        exact List.mem_append_right _ (List.mem_cons_self _ _)

theorem search_pair_of_mem (t : Tree K V) (k : K) (v : V)
    (h : BSTb t = true) (hm : (k, v) ∈ inorderPairs t) :
    Rec.search_pair t k = some (k, v) := by
  induction t with
  | nil => simp [inorderPairs] at hm
  | node key val l r ihl ihr =>
      obtain ⟨hl, hr, bl, br⟩ := (bst_node_iff key val l r).1 h
      rw [inorderPairs] at hm
      rw [Rec.search_pair]
      rcases List.mem_append.1 hm with hm | hm
      · have hkl : k ∈ Rec.in_order l := by
          rw [in_order_eq_pairs_fst]
          exact List.mem_map_of_mem Prod.fst hm
        have hklt : k < key := hl k hkl
        rw [if_neg (not_lt.2 hklt.le), if_pos hklt]
        exact ihl bl hm
      · rcases List.mem_cons.1 hm with hm | hm
        · cases hm
          rw [if_neg (lt_irrefl _), if_neg (lt_irrefl _)]
        · have hkr : k ∈ Rec.in_order r := by
            rw [in_order_eq_pairs_fst]
            exact List.mem_map_of_mem Prod.fst hm
          have hklt : key < k := hr k hkr
          rw [if_pos hklt]
          exact ihr br hm

theorem contains_iff_mem (t : Tree K V) (k : K) (h : BSTb t = true) :
    Rec.contains t k = true ↔ k ∈ Rec.in_order t := by
  constructor
  · intro hc
    rw [Rec.contains, Rec.get, Option.isSome_map'] at hc
    obtain ⟨p, hp⟩ := Option.isSome_iff_exists.1 hc
    have := search_pair_mem t k p hp
    rw [in_order_eq_pairs_fst]
    exact search_pair_fst t k p hp ▸ List.mem_map_of_mem Prod.fst this
  · intro hm
    rw [in_order_eq_pairs_fst] at hm
    obtain ⟨p, hp, hfst⟩ := List.mem_map.1 hm
    have : Rec.search_pair t k = some (k, p.2) := by
      apply search_pair_of_mem t k p.2 h
      rwa [show (k, p.2) = p from Prod.ext hfst.symm rfl]
    simp [Rec.contains, Rec.get, this]

/-! ### Insertion -/

theorem mem_in_order_insert (t : Tree K V) (k : K) (v : V) (x : K) :
    x ∈ Rec.in_order (Rec.insert t k v) ↔ x = k ∨ x ∈ Rec.in_order t := by
  induction t with
  | nil => simp [Rec.insert, Rec.in_order]
  | node key val l r ihl ihr =>
      rw [Rec.insert]
      split_ifs with h1 h2
      · simp only [Rec.in_order, List.mem_append, List.mem_cons, ihl]
        tauto
      · simp only [Rec.in_order, List.mem_append, List.mem_cons, ihr]
        tauto
      · have : key = k := le_antisymm (not_lt.1 h1) (not_lt.1 h2)
        subst this
        simp only [Rec.in_order, List.mem_append, List.mem_cons]
        tauto

theorem search_pair_insert_self (t : Tree K V) (k : K) (v : V) :
    Rec.search_pair (Rec.insert t k v) k = some (k, v) := by
  induction t with
  | nil => simp [Rec.insert, Rec.search_pair]
  | node key val l r ihl ihr =>
      rw [Rec.insert]
      split_ifs with h1 h2
      · rw [Rec.search_pair, if_neg (not_lt.2 h1.le), if_pos h1]
        exact ihl
      · rw [Rec.search_pair, if_pos h2]
        exact ihr
      · have : key = k := le_antisymm (not_lt.1 h1) (not_lt.1 h2)
        subst this
        rw [Rec.search_pair, if_neg (lt_irrefl _), if_neg (lt_irrefl _)]

theorem contains_insert_self (t : Tree K V) (k : K) (v : V) :
    Rec.contains (Rec.insert t k v) k = true := by
  simp [Rec.contains, Rec.get, search_pair_insert_self]

theorem size_insert (t : Tree K V) (k : K) (v : V) :
    size (Rec.insert t k v) =
      if Rec.contains t k then size t else size t + 1 := by
  induction t with
  | nil => simp [Rec.insert, Rec.contains, Rec.get, Rec.search_pair, size]
  | node key val l r ihl ihr =>
      rcases lt_trichotomy key k with h | h | h
      · rw [Rec.insert, if_neg (not_lt.2 h.le), if_pos h]
        rw [show Rec.contains (Tree.node key val l r) k = Rec.contains r k by
          simp [Rec.contains, Rec.get, Rec.search_pair, if_pos h]]
        simp only [size, ihr]
        split_ifs <;> omega
      · subst h
        rw [Rec.insert, if_neg (lt_irrefl key), if_neg (lt_irrefl key)]
        rw [show Rec.contains (Tree.node key val l r) key = true by
          simp [Rec.contains, Rec.get, Rec.search_pair, if_neg (lt_irrefl key)]]
        simp [size]
      · rw [Rec.insert, if_pos h]
        rw [show Rec.contains (Tree.node key val l r) k = Rec.contains l k by
          simp [Rec.contains, Rec.get, Rec.search_pair, if_neg (not_lt.2 h.le),
            if_pos h]]
        simp only [size, ihl]
        split_ifs <;> omega

theorem allB_insert (p : K → Bool) (t : Tree K V) (k : K) (v : V)
    (ht : allB p t = true) (hk : p k = true) :
    allB p (Rec.insert t k v) = true := by
  rw [allB_iff] at ht ⊢
  intro x hx
  rcases (mem_in_order_insert t k v x).1 hx with rfl | hx
  · exact hk
  · exact ht x hx

theorem BSTb_insert (t : Tree K V) (k : K) (v : V) (h : BSTb t = true) :
    BSTb (Rec.insert t k v) = true := by
  induction t with
  | nil => simp [Rec.insert, BSTb, allB]
  | node key val l r ihl ihr =>
      rw [BSTb, Bool.and_eq_true, Bool.and_eq_true, Bool.and_eq_true] at h
      obtain ⟨⟨⟨hal, har⟩, bl⟩, br⟩ := h
      rw [Rec.insert]
      split_ifs with h1 h2
      · rw [BSTb]
        simp only [Bool.and_eq_true]
        exact ⟨⟨⟨allB_insert _ l k v hal (by simpa using h1), har⟩, ihl bl⟩, br⟩
      · rw [BSTb]
        simp only [Bool.and_eq_true]
        exact ⟨⟨⟨hal, allB_insert _ r k v har (by simpa using h2)⟩, bl⟩, ihr br⟩
      · have : key = k := le_antisymm (not_lt.1 h1) (not_lt.1 h2)
        subst this
        rw [BSTb]
        simp only [Bool.and_eq_true]
        exact ⟨⟨⟨hal, har⟩, bl⟩, br⟩

/-! ### Splicing out the minimum and deletion -/

theorem remove_min_in_order (key : K) (val : V) (l r : Tree K V) :
    Rec.in_order (Tree.node key val l r) =
      (Rec.remove_min key val l r).2.1 :: Rec.in_order (Rec.remove_min key val l r).1 := by
  induction l generalizing key val r with
  | nil => simp [Rec.remove_min, Rec.in_order]
  | node lk lv ll lr ihl ihr =>
      rw [Rec.remove_min]
      have h := ihl lk lv lr
      rw [show Rec.in_order (Tree.node key val (Tree.node lk lv ll lr) r) =
          Rec.in_order (Tree.node lk lv ll lr) ++ key :: Rec.in_order r from rfl]
      rw [h]
      simp [Rec.in_order]

theorem remove_min_snd_min_pair (key : K) (val : V) (l r : Tree K V) :
    some (Rec.remove_min key val l r).2 = Rec.min_pair (Tree.node key val l r) := by
  induction l generalizing key val r with
  | nil => simp [Rec.remove_min, Rec.min_pair]
  | node lk lv ll lr ihl ihr =>
      rw [Rec.remove_min]
      have h := ihl lk lv lr
      rw [Rec.min_pair, ← h]
      simp

theorem in_order_delete_root (key : K) (val : V) (l r : Tree K V) :
    Rec.in_order (Rec.delete_root key val l r) = Rec.in_order l ++ Rec.in_order r := by
  cases l with
  | nil => cases r <;> simp [Rec.delete_root, Rec.in_order]
  | node lk lv ll lr =>
      cases r with
      | nil => simp [Rec.delete_root, Rec.in_order]
      | node rk rv rl rr =>
          rw [Rec.delete_root, Rec.combine_two_subtrees]
          have h := remove_min_in_order rk rv rl rr
          rw [show Rec.in_order
              (Tree.node (Rec.remove_min rk rv rl rr).2.1 (Rec.remove_min rk rv rl rr).2.2
                (Tree.node lk lv ll lr) (Rec.remove_min rk rv rl rr).1) =
              Rec.in_order (Tree.node lk lv ll lr) ++
                (Rec.remove_min rk rv rl rr).2.1 :: Rec.in_order (Rec.remove_min rk rv rl rr).1
            from rfl]
          rw [← h]

theorem in_order_delete (t : Tree K V) (k : K) (h : BSTb t = true) :
    Rec.in_order (Rec.delete t k) = (Rec.in_order t).filter (fun x => decide (x ≠ k)) := by
  induction t with
  | nil => simp [Rec.delete, Rec.in_order]
  | node key val l r ihl ihr =>
      obtain ⟨hl, hr, bl, br⟩ := (bst_node_iff key val l r).1 h
      rw [Rec.delete]
      split_ifs with h1 h2
      · rw [show Rec.in_order (Tree.node key val l (Rec.delete r k)) =
            Rec.in_order l ++ key :: Rec.in_order (Rec.delete r k) from rfl]
        rw [ihr br]
        rw [show Rec.in_order (Tree.node key val l r) =
            Rec.in_order l ++ key :: Rec.in_order r from rfl]
        have hfl : (Rec.in_order l).filter (fun x => decide (x ≠ k)) = Rec.in_order l :=
          List.filter_eq_self.2 (fun a ha => by simp [ne_of_lt (lt_trans (hl a ha) h1)])
        rw [List.filter_append, List.filter_cons_of_pos (by simp [ne_of_lt h1]), hfl]
      · rw [show Rec.in_order (Tree.node key val (Rec.delete l k) r) =
            Rec.in_order (Rec.delete l k) ++ key :: Rec.in_order r from rfl]
        rw [ihl bl]
        rw [show Rec.in_order (Tree.node key val l r) =
            Rec.in_order l ++ key :: Rec.in_order r from rfl]
        have hfr : (Rec.in_order r).filter (fun x => decide (x ≠ k)) = Rec.in_order r :=
          List.filter_eq_self.2 (fun a ha => by simp [ne_of_gt (lt_trans h2 (hr a ha))])
        rw [List.filter_append, List.filter_cons_of_pos (by simp [ne_of_gt h2]), hfr]
      · have hkey : key = k := le_antisymm (not_lt.1 h2) (not_lt.1 h1)
        subst hkey
        rw [in_order_delete_root]
        rw [show Rec.in_order (Tree.node key val l r) =
            Rec.in_order l ++ key :: Rec.in_order r from rfl]
        have hfl : (Rec.in_order l).filter (fun x => decide (x ≠ key)) = Rec.in_order l :=
          List.filter_eq_self.2 (fun a ha => by simp [ne_of_lt (hl a ha)])
        have hfr : (Rec.in_order r).filter (fun x => decide (x ≠ key)) = Rec.in_order r :=
          List.filter_eq_self.2 (fun a ha => by simp [ne_of_gt (hr a ha)])
        rw [List.filter_append, List.filter_cons_of_neg (by simp), hfl, hfr]

theorem BSTb_delete (t : Tree K V) (k : K) (h : BSTb t = true) :
    BSTb (Rec.delete t k) = true := by
  rw [BSTb_iff_pairwise, in_order_delete t k h]
  exact ((BSTb_iff_pairwise t).1 h).filter _

/-! ### Subtree excision -/

theorem node_remove_tree_splice (t : Tree K V) (k : K) :
    ∃ pre post,
      Rec.in_order t = pre ++ Rec.in_order (Rec.Node.remove_tree t k).2 ++ post ∧
      Rec.in_order (Rec.Node.remove_tree t k).1 = pre ++ post := by
  induction t with
  | nil => exact ⟨[], [], by simp [Rec.Node.remove_tree, Rec.in_order], by
      simp [Rec.Node.remove_tree, Rec.in_order]⟩
  | node key val l r ihl ihr =>
      rw [Rec.Node.remove_tree.eq_def]
      dsimp only
      split_ifs with h1 h2
      · cases r with
        | nil =>
            exact ⟨Rec.in_order (Tree.node key val l .nil), [], by
              simp [Rec.in_order], by simp [Rec.in_order]⟩
        | node rk rv rl rr =>
            dsimp only
            by_cases hk : rk = k
            · rw [if_pos hk]
              exact ⟨Rec.in_order l ++ [key], [], by simp [Rec.in_order], by
                simp [Rec.in_order]⟩
            · rw [if_neg hk]
              obtain ⟨pre, post, hsp, hfst⟩ := ihr
              refine ⟨Rec.in_order l ++ key :: pre, post, ?_, ?_⟩
              · rw [show Rec.in_order (Tree.node key val l (Tree.node rk rv rl rr)) =
                    Rec.in_order l ++ key :: Rec.in_order (Tree.node rk rv rl rr) from rfl]
                rw [hsp]
                simp
              · rw [show Rec.in_order
                    (Tree.node key val l (Rec.Node.remove_tree (Tree.node rk rv rl rr) k).1) =
                    Rec.in_order l ++
                      key :: Rec.in_order (Rec.Node.remove_tree (Tree.node rk rv rl rr) k).1
                    from rfl]
                rw [hfst]
                simp
      · cases l with
        | nil =>
            exact ⟨Rec.in_order (Tree.node key val .nil r), [], by
              simp [Rec.in_order], by simp [Rec.in_order]⟩
        | node lk lv ll lr =>
            dsimp only
            by_cases hk : lk = k
            · rw [if_pos hk]
              exact ⟨[], key :: Rec.in_order r, by simp [Rec.in_order], by
                simp [Rec.in_order]⟩
            · rw [if_neg hk]
              obtain ⟨pre, post, hsp, hfst⟩ := ihl
              refine ⟨pre, post ++ key :: Rec.in_order r, ?_, ?_⟩
              · rw [show Rec.in_order (Tree.node key val (Tree.node lk lv ll lr) r) =
                    Rec.in_order (Tree.node lk lv ll lr) ++ key :: Rec.in_order r from rfl]
                rw [hsp]
                simp
              · rw [show Rec.in_order
                    (Tree.node key val (Rec.Node.remove_tree (Tree.node lk lv ll lr) k).1 r) =
                    Rec.in_order (Rec.Node.remove_tree (Tree.node lk lv ll lr) k).1 ++
                      key :: Rec.in_order r from rfl]
                rw [hfst]
                simp
      · exact ⟨Rec.in_order (Tree.node key val l r), [], by simp [Rec.in_order], by
          simp [Rec.in_order]⟩

theorem remove_tree_splice (t : Tree K V) (k : K) :
    ∃ pre post,
      Rec.in_order t = pre ++ Rec.in_order (Rec.remove_tree t k).2 ++ post ∧
      Rec.in_order (Rec.remove_tree t k).1 = pre ++ post := by
  cases t with
  | nil => exact ⟨[], [], by simp [Rec.remove_tree, Rec.in_order], by
      simp [Rec.remove_tree, Rec.in_order]⟩
  | node key val l r =>
      rw [Rec.remove_tree]
      by_cases hk : key = k
      · rw [if_pos hk]
        exact ⟨[], [], by simp [Rec.in_order], by simp [Rec.in_order]⟩
      · rw [if_neg hk]
        exact node_remove_tree_splice (Tree.node key val l r) k

theorem node_delete_tree_eq_remove_fst (t : Tree K V) (k : K) :
    Rec.Node.delete_tree t k = (Rec.Node.remove_tree t k).1 := by
  induction t with
  | nil => simp [Rec.Node.delete_tree, Rec.Node.remove_tree]
  | node key val l r ihl ihr =>
      rw [Rec.Node.delete_tree.eq_def, Rec.Node.remove_tree.eq_def]
      dsimp only
      split_ifs with h1 h2
      · cases r with
        | nil => rfl
        | node rk rv rl rr =>
            dsimp only
            by_cases hk : rk = k
            · rw [if_pos hk, if_pos hk]
            · rw [if_neg hk, if_neg hk, ihr]
      · cases l with
        | nil => rfl
        | node lk lv ll lr =>
            dsimp only
            by_cases hk : lk = k
            · rw [if_pos hk, if_pos hk]
            · rw [if_neg hk, if_neg hk, ihl]
      · rfl

theorem delete_tree_eq_remove_fst (t : Tree K V) (k : K) :
    Rec.delete_tree t k = (Rec.remove_tree t k).1 := by
  cases t with
  | nil => rfl
  | node key val l r =>
      rw [Rec.delete_tree, Rec.remove_tree]
      by_cases hk : key = k
      · rw [if_pos hk, if_pos hk]
      · rw [if_neg hk, if_neg hk]
        exact node_delete_tree_eq_remove_fst (Tree.node key val l r) k

theorem node_remove_tree_snd_eq_find (t : Tree K V) (k : K)
    (h : rootKeyO t ≠ some k) :
    (Rec.Node.remove_tree t k).2 = find_node t k := by
  induction t with
  | nil => simp [Rec.Node.remove_tree, find_node]
  | node key val l r ihl ihr =>
      have hkey : key ≠ k := by
        intro hc
        exact h (by simp [rootKeyO, hc])
      rw [Rec.Node.remove_tree.eq_def, find_node]
      dsimp only
      rcases lt_trichotomy key k with h1 | h1 | h1
      · rw [if_pos h1, if_pos h1]
        cases r with
        | nil => simp [find_node]
        | node rk rv rl rr =>
            dsimp only
            by_cases hk : rk = k
            · rw [if_pos hk]
              simp [find_node, hk]
            · rw [if_neg hk]
              rw [ihr (by simp [rootKeyO, hk])]
      · exact absurd h1 hkey
      · rw [if_neg (not_lt.2 h1.le), if_neg (not_lt.2 h1.le), if_pos h1, if_pos h1]
        cases l with
        | nil => simp [find_node]
        | node lk lv ll lr =>
            dsimp only
            by_cases hk : lk = k
            · rw [if_pos hk]
              simp [find_node, hk]
            · rw [if_neg hk]
              rw [ihl (by simp [rootKeyO, hk])]

theorem remove_tree_snd_eq_find (t : Tree K V) (k : K) :
    (Rec.remove_tree t k).2 = find_node t k := by
  cases t with
  | nil => rfl
  | node key val l r =>
      rw [Rec.remove_tree]
      by_cases hk : key = k
      · subst hk
        rw [if_pos rfl, find_node, if_neg (lt_irrefl key), if_neg (lt_irrefl key)]
      · rw [if_neg hk]
        exact node_remove_tree_snd_eq_find (Tree.node key val l r) k
          (by simp [rootKeyO, hk])

theorem contains_node_lt (key : K) (val : V) (l r : Tree K V) (k : K)
    (h : key < k) :
    Rec.contains (Tree.node key val l r) k = Rec.contains r k := by
  simp [Rec.contains, Rec.get, Rec.search_pair, if_pos h]

theorem contains_node_gt (key : K) (val : V) (l r : Tree K V) (k : K)
    (h : k < key) :
    Rec.contains (Tree.node key val l r) k = Rec.contains l k := by
  simp [Rec.contains, Rec.get, Rec.search_pair, if_neg (not_lt.2 h.le), if_pos h]

theorem contains_node_self (key : K) (val : V) (l r : Tree K V) :
    Rec.contains (Tree.node key val l r) key = true := by
  simp [Rec.contains, Rec.get, Rec.search_pair, if_neg (lt_irrefl key)]

theorem find_node_root_key (t : Tree K V) (k : K)
    (h : Rec.contains t k = true) : rootKeyO (find_node t k) = some k := by
  induction t with
  | nil => simp [Rec.contains, Rec.get, Rec.search_pair] at h
  | node key val l r ihl ihr =>
      rw [find_node]
      rcases lt_trichotomy key k with h1 | h1 | h1
      · rw [if_pos h1]
        rw [contains_node_lt key val l r k h1] at h
        exact ihr h
      · subst h1
        rw [if_neg (lt_irrefl key), if_neg (lt_irrefl key)]
        simp [rootKeyO]
      · rw [if_neg (not_lt.2 h1.le), if_pos h1]
        rw [contains_node_gt key val l r k h1] at h
        exact ihl h

theorem BSTb_remove_tree_fst (t : Tree K V) (k : K) (h : BSTb t = true) :
    BSTb (Rec.remove_tree t k).1 = true := by
  obtain ⟨pre, post, hsp, hfst⟩ := remove_tree_splice t k
  rw [BSTb_iff_pairwise, hfst]
  have hp : List.Pairwise (· < ·) (Rec.in_order t) := (BSTb_iff_pairwise t).1 h
  rw [hsp] at hp
  have hsub : (pre ++ post).Sublist
      (pre ++ (Rec.in_order (Rec.remove_tree t k).2 ++ post)) :=
    (List.sublist_append_right _ post).append_left pre
  rw [List.append_assoc] at hp
  exact hp.sublist hsub

theorem BSTb_delete_tree (t : Tree K V) (k : K) (h : BSTb t = true) :
    BSTb (Rec.delete_tree t k) = true := by
  rw [delete_tree_eq_remove_fst]
  exact BSTb_remove_tree_fst t k h

theorem BSTb_remove_tree_snd (t : Tree K V) (k : K) (h : BSTb t = true) :
    BSTb (Rec.remove_tree t k).2 = true := by
  obtain ⟨pre, post, hsp, hfst⟩ := remove_tree_splice t k
  rw [BSTb_iff_pairwise]
  have hp : List.Pairwise (· < ·) (Rec.in_order t) := (BSTb_iff_pairwise t).1 h
  rw [hsp] at hp
  exact (List.pairwise_append.1 (List.pairwise_append.1 hp).1).2.1

/-! ### No-ops on an absent key -/

theorem delete_noop (t : Tree K V) (k : K) (h : Rec.contains t k = false) :
    Rec.delete t k = t := by
  induction t with
  | nil => rfl
  | node key val l r ihl ihr =>
      rw [Rec.delete]
      rcases lt_trichotomy key k with h1 | h1 | h1
      · rw [contains_node_lt key val l r k h1] at h
        rw [if_pos h1, ihr h]
      · subst h1
        rw [contains_node_self] at h
        cases h
      · rw [contains_node_gt key val l r k h1] at h
        rw [if_neg (not_lt.2 h1.le), if_pos h1, ihl h]

theorem node_delete_tree_noop (t : Tree K V) (k : K)
    (h : Rec.contains t k = false) : Rec.Node.delete_tree t k = t := by
  induction t with
  | nil => rfl
  | node key val l r ihl ihr =>
      rw [Rec.Node.delete_tree.eq_def]
      dsimp only
      rcases lt_trichotomy key k with h1 | h1 | h1
      · rw [if_pos h1]
        rw [contains_node_lt key val l r k h1] at h
        cases r with
        | nil => rfl
        | node rk rv rl rr =>
            dsimp only
            have hk : rk ≠ k := by
              intro hc
              subst hc
              rw [contains_node_self] at h
              cases h
            rw [if_neg hk, ihr h]
      · subst h1
        rw [contains_node_self] at h
        cases h
      · rw [if_neg (not_lt.2 h1.le), if_pos h1]
        rw [contains_node_gt key val l r k h1] at h
        cases l with
        | nil => rfl
        | node lk lv ll lr =>
            dsimp only
            have hk : lk ≠ k := by
              intro hc
              subst hc
              rw [contains_node_self] at h
              cases h
            rw [if_neg hk, ihl h]

theorem delete_tree_noop (t : Tree K V) (k : K)
    (h : Rec.contains t k = false) : Rec.delete_tree t k = t := by
  cases t with
  | nil => rfl
  | node key val l r =>
      rw [Rec.delete_tree]
      have hk : key ≠ k := by
        intro hc
        subst hc
        rw [contains_node_self] at h
        cases h
      rw [if_neg hk]
      exact node_delete_tree_noop (Tree.node key val l r) k h

theorem node_remove_tree_noop (t : Tree K V) (k : K)
    (h : Rec.contains t k = false) : Rec.Node.remove_tree t k = (t, .nil) := by
  induction t with
  | nil => rfl
  | node key val l r ihl ihr =>
      rw [Rec.Node.remove_tree.eq_def]
      dsimp only
      rcases lt_trichotomy key k with h1 | h1 | h1
      · rw [if_pos h1]
        rw [contains_node_lt key val l r k h1] at h
        cases r with
        | nil => rfl
        | node rk rv rl rr =>
            dsimp only
            have hk : rk ≠ k := by
              intro hc
              subst hc
              rw [contains_node_self] at h
              cases h
            rw [if_neg hk, ihr h]
      · subst h1
        rw [contains_node_self] at h
        cases h
      · rw [if_neg (not_lt.2 h1.le), if_pos h1]
        rw [contains_node_gt key val l r k h1] at h
        cases l with
        | nil => rfl
        | node lk lv ll lr =>
            dsimp only
            have hk : lk ≠ k := by
              intro hc
              subst hc
              rw [contains_node_self] at h
              cases h
            rw [if_neg hk, ihl h]

theorem remove_tree_noop (t : Tree K V) (k : K)
    (h : Rec.contains t k = false) : Rec.remove_tree t k = (t, .nil) := by
  cases t with
  | nil => rfl
  | node key val l r =>
      rw [Rec.remove_tree]
      have hk : key ≠ k := by
        intro hc
        subst hc
        rw [contains_node_self] at h
        cases h
      rw [if_neg hk]
      exact node_remove_tree_noop (Tree.node key val l r) k h

/-! ### Minimum, maximum, successor, predecessor -/

theorem min_pair_eq_none_iff (t : Tree K V) :
    Rec.min_pair t = none ↔ t = Tree.nil := by
  cases t <;> simp [Rec.min_pair]

theorem max_pair_eq_none_iff (t : Tree K V) :
    Rec.max_pair t = none ↔ t = Tree.nil := by
  cases t <;> simp [Rec.max_pair]

theorem min_pair_mem (t : Tree K V) (m : K × V)
    (h : Rec.min_pair t = some m) : m ∈ inorderPairs t := by
  induction t with
  | nil => simp [Rec.min_pair] at h
  | node key val l r ihl ihr =>
      rw [Rec.min_pair] at h
      rw [inorderPairs]
      cases hl : Rec.min_pair l with
      | none =>
          rw [hl] at h
          simp only [Option.getD_none, Option.some_inj] at h
          subst h
          exact List.mem_append_right _ (List.mem_cons_self _ _)
      | some p =>
          rw [hl] at h
          simp only [Option.getD_some, Option.some_inj] at h
          subst h
          exact List.mem_append_left _ (ihl hl)

theorem max_pair_mem (t : Tree K V) (m : K × V)
    (h : Rec.max_pair t = some m) : m ∈ inorderPairs t := by
  induction t with
  | nil => simp [Rec.max_pair] at h
  | node key val l r ihl ihr =>
      rw [Rec.max_pair] at h
      rw [inorderPairs]
      cases hr : Rec.max_pair r with
      | none =>
          rw [hr] at h
          simp only [Option.getD_none, Option.some_inj] at h
          subst h
          exact List.mem_append_right _ (List.mem_cons_self _ _)
      | some p =>
          rw [hr] at h
          simp only [Option.getD_some, Option.some_inj] at h
          subst h
          exact List.mem_append_right _ (List.mem_cons_of_mem _ (ihr hr))

theorem min_pair_lb (t : Tree K V) (m : K × V) (h : BSTb t = true)
    (hm : Rec.min_pair t = some m) : ∀ x ∈ Rec.in_order t, m.1 ≤ x := by
  induction t with
  | nil => simp [Rec.in_order]
  | node key val l r ihl ihr =>
      obtain ⟨hl, hr, bl, br⟩ := (bst_node_iff key val l r).1 h
      rw [Rec.min_pair] at hm
      intro x hx
      rw [show Rec.in_order (Tree.node key val l r) =
          Rec.in_order l ++ key :: Rec.in_order r from rfl] at hx
      cases hml : Rec.min_pair l with
      | none =>
          rw [hml] at hm
          simp only [Option.getD_none, Option.some_inj] at hm
          have hlnil : l = Tree.nil := (min_pair_eq_none_iff l).1 hml
          subst hlnil
          subst hm
          rcases List.mem_append.1 hx with hx | hx
          · simp [Rec.in_order] at hx
          · rcases List.mem_cons.1 hx with rfl | hx
            · exact le_refl _
            · exact (hr x hx).le
      | some p =>
          rw [hml] at hm
          simp only [Option.getD_some, Option.some_inj] at hm
          have hml2 : Rec.min_pair l = some m := hm ▸ hml
          have hp1 : m.1 ∈ Rec.in_order l := by
            rw [in_order_eq_pairs_fst]
            exact List.mem_map_of_mem Prod.fst (min_pair_mem l m hml2)
          rcases List.mem_append.1 hx with hx | hx
          · exact ihl bl hml2 x hx
          · rcases List.mem_cons.1 hx with rfl | hx
            · exact (hl _ hp1).le
            · exact ((hl _ hp1).trans (hr x hx)).le

theorem max_pair_ub (t : Tree K V) (m : K × V) (h : BSTb t = true)
    (hm : Rec.max_pair t = some m) : ∀ x ∈ Rec.in_order t, x ≤ m.1 := by
  induction t with
  | nil => simp [Rec.in_order]
  | node key val l r ihl ihr =>
      obtain ⟨hl, hr, bl, br⟩ := (bst_node_iff key val l r).1 h
      rw [Rec.max_pair] at hm
      intro x hx
      rw [show Rec.in_order (Tree.node key val l r) =
          Rec.in_order l ++ key :: Rec.in_order r from rfl] at hx
      cases hmr : Rec.max_pair r with
      | none =>
          rw [hmr] at hm
          simp only [Option.getD_none, Option.some_inj] at hm
          have hrnil : r = Tree.nil := (max_pair_eq_none_iff r).1 hmr
          subst hrnil
          subst hm
          rcases List.mem_append.1 hx with hx | hx
          · exact (hl x hx).le
          · rcases List.mem_cons.1 hx with rfl | hx
            · exact le_refl _
            · simp [Rec.in_order] at hx
      | some p =>
          rw [hmr] at hm
          simp only [Option.getD_some, Option.some_inj] at hm
          have hmr2 : Rec.max_pair r = some m := hm ▸ hmr
          have hp1 : m.1 ∈ Rec.in_order r := by
            rw [in_order_eq_pairs_fst]
            exact List.mem_map_of_mem Prod.fst (max_pair_mem r m hmr2)
          rcases List.mem_append.1 hx with hx | hx
          · exact ((hl x hx).trans (hr _ hp1)).le
          · rcases List.mem_cons.1 hx with rfl | hx
            · exact (hr _ hp1).le
            · exact ihr br hmr2 x hx

theorem successor_spec (t : Tree K V) (k : K) (h : BSTb t = true) :
    (∀ p, Rec.successor t k = some p →
        p ∈ inorderPairs t ∧ k < p.1 ∧ ∀ x ∈ Rec.in_order t, k < x → p.1 ≤ x) ∧
    (Rec.successor t k = none → ∀ x ∈ Rec.in_order t, x ≤ k) := by
  induction t with
  | nil => simp [Rec.successor, Rec.in_order]
  | node key val l r ihl ihr =>
      obtain ⟨hl, hr, bl, br⟩ := (bst_node_iff key val l r).1 h
      have hmem : ∀ x, x ∈ Rec.in_order (Tree.node key val l r) ↔
          x ∈ Rec.in_order l ∨ x = key ∨ x ∈ Rec.in_order r := by
        intro x
        rw [show Rec.in_order (Tree.node key val l r) =
            Rec.in_order l ++ key :: Rec.in_order r from rfl]
        simp
      rcases lt_trichotomy k key with hkk | hkk | hkk
      · -- key > k: candidate is this node, try left first
        rw [Rec.successor, if_pos hkk]
        cases hsl : Rec.successor l k with
        | none =>
            constructor
            · intro p hp
              simp only [Option.or, Option.some_inj] at hp
              subst hp
              refine ⟨?_, hkk, ?_⟩
              · rw [inorderPairs]
                exact List.mem_append_right _ (List.mem_cons_self _ _)
              · intro x hx hkx
                rcases (hmem x).1 hx with hx | rfl | hx
                · exact absurd hkx (not_lt.2 ((ihl bl).2 hsl x hx))
                · exact le_refl _
                · exact (hr x hx).le
            · intro hc
              simp [Option.or] at hc
        | some q =>
            constructor
            · intro p hp
              simp only [Option.or, Option.some_inj] at hp
              subst hp
              obtain ⟨hqm, hqk, hqmin⟩ := (ihl bl).1 q hsl
              have hq1 : q.1 ∈ Rec.in_order l := by
                rw [in_order_eq_pairs_fst]
                exact List.mem_map_of_mem Prod.fst hqm
              refine ⟨?_, hqk, ?_⟩
              · rw [inorderPairs]
                exact List.mem_append_left _ hqm
              · intro x hx hkx
                rcases (hmem x).1 hx with hx | rfl | hx
                · exact hqmin x hx hkx
                · exact (hl _ hq1).le
                · exact ((hl _ hq1).trans (hr x hx)).le
            · intro hc
              simp [Option.or] at hc
      · -- key = k: successor is the minimum of the right subtree
        subst hkk
        rw [Rec.successor, if_neg (lt_irrefl k), if_neg (lt_irrefl k)]
        constructor
        · intro p hp
          have hpm := min_pair_mem r p hp
          have hmin := min_pair_lb r p br hp
          have hp1 : p.1 ∈ Rec.in_order r := by
            rw [in_order_eq_pairs_fst]
            exact List.mem_map_of_mem Prod.fst hpm
          refine ⟨?_, hr _ hp1, ?_⟩
          · rw [inorderPairs]
            exact List.mem_append_right _ (List.mem_cons_of_mem _ hpm)
          · intro x hx hkx
            rcases (hmem x).1 hx with hx | rfl | hx
            · exact absurd (hl x hx) (not_lt.2 hkx.le)
            · exact absurd hkx (lt_irrefl x)
            · exact hmin x hx
        · intro hc
          have hrnil : r = Tree.nil := (min_pair_eq_none_iff r).1 hc
          subst hrnil
          intro x hx
          rcases (hmem x).1 hx with hx | rfl | hx
          · exact (hl x hx).le
          · exact le_refl _
          · simp [Rec.in_order] at hx
      · -- key < k: look right
        rw [Rec.successor, if_neg (not_lt.2 hkk.le), if_pos hkk]
        constructor
        · intro p hp
          obtain ⟨hpm, hpk, hpmin⟩ := (ihr br).1 p hp
          refine ⟨?_, hpk, ?_⟩
          · rw [inorderPairs]
            exact List.mem_append_right _ (List.mem_cons_of_mem _ hpm)
          · intro x hx hkx
            rcases (hmem x).1 hx with hx | rfl | hx
            · exact absurd ((hl x hx).trans hkk) (not_lt.2 hkx.le)
            · exact absurd hkk (not_lt.2 hkx.le)
            · exact hpmin x hx hkx
        · intro hc x hx
          rcases (hmem x).1 hx with hx | rfl | hx
          · exact ((hl x hx).trans hkk).le
          · exact hkk.le
          · exact (ihr br).2 hc x hx

theorem predecessor_spec (t : Tree K V) (k : K) (h : BSTb t = true) :
    (∀ p, Rec.predecessor t k = some p →
        p ∈ inorderPairs t ∧ p.1 < k ∧ ∀ x ∈ Rec.in_order t, x < k → x ≤ p.1) ∧
    (Rec.predecessor t k = none → ∀ x ∈ Rec.in_order t, k ≤ x) := by
  induction t with
  | nil => simp [Rec.predecessor, Rec.in_order]
  | node key val l r ihl ihr =>
      obtain ⟨hl, hr, bl, br⟩ := (bst_node_iff key val l r).1 h
      have hmem : ∀ x, x ∈ Rec.in_order (Tree.node key val l r) ↔
          x ∈ Rec.in_order l ∨ x = key ∨ x ∈ Rec.in_order r := by
        intro x
        rw [show Rec.in_order (Tree.node key val l r) =
            Rec.in_order l ++ key :: Rec.in_order r from rfl]
        simp
      rcases lt_trichotomy key k with hkk | hkk | hkk
      · -- key < k: candidate is this node, try right first
        rw [Rec.predecessor, if_pos hkk]
        cases hsr : Rec.predecessor r k with
        | none =>
            constructor
            · intro p hp
              simp only [Option.or, Option.some_inj] at hp
              subst hp
              refine ⟨?_, hkk, ?_⟩
              · rw [inorderPairs]
                exact List.mem_append_right _ (List.mem_cons_self _ _)
              · intro x hx hxk
                rcases (hmem x).1 hx with hx | rfl | hx
                · exact (hl x hx).le
                · exact le_refl _
                · exact absurd hxk (not_lt.2 ((ihr br).2 hsr x hx))
            · intro hc
              simp [Option.or] at hc
        | some q =>
            constructor
            · intro p hp
              simp only [Option.or, Option.some_inj] at hp
              subst hp
              obtain ⟨hqm, hqk, hqmax⟩ := (ihr br).1 q hsr
              have hq1 : q.1 ∈ Rec.in_order r := by
                rw [in_order_eq_pairs_fst]
                exact List.mem_map_of_mem Prod.fst hqm
              refine ⟨?_, hqk, ?_⟩
              · rw [inorderPairs]
                exact List.mem_append_right _ (List.mem_cons_of_mem _ hqm)
              · intro x hx hxk
                rcases (hmem x).1 hx with hx | rfl | hx
                · exact ((hl x hx).trans (hr _ hq1)).le
                · exact (hr _ hq1).le
                · exact hqmax x hx hxk
            · intro hc
              simp [Option.or] at hc
      · -- key = k: predecessor is the maximum of the left subtree
        subst hkk
        rw [Rec.predecessor, if_neg (lt_irrefl key), if_neg (lt_irrefl key)]
        constructor
        · intro p hp
          have hpm := max_pair_mem l p hp
          have hmax := max_pair_ub l p bl hp
          have hp1 : p.1 ∈ Rec.in_order l := by
            rw [in_order_eq_pairs_fst]
            exact List.mem_map_of_mem Prod.fst hpm
          refine ⟨?_, hl _ hp1, ?_⟩
          · rw [inorderPairs]
            exact List.mem_append_left _ hpm
          · intro x hx hxk
            rcases (hmem x).1 hx with hx | rfl | hx
            · exact hmax x hx
            · exact absurd hxk (lt_irrefl x)
            · exact absurd (hr x hx) (not_lt.2 hxk.le)
        · intro hc
          have hlnil : l = Tree.nil := (max_pair_eq_none_iff l).1 hc
          subst hlnil
          intro x hx
          rcases (hmem x).1 hx with hx | rfl | hx
          · simp [Rec.in_order] at hx
          · exact le_refl _
          · exact (hr x hx).le
      · -- key > k: look left
        rw [Rec.predecessor, if_neg (not_lt.2 hkk.le), if_pos hkk]
        constructor
        · intro p hp
          obtain ⟨hpm, hpk, hpmax⟩ := (ihl bl).1 p hp
          refine ⟨?_, hpk, ?_⟩
          · rw [inorderPairs]
            exact List.mem_append_left _ hpm
          · intro x hx hxk
            rcases (hmem x).1 hx with hx | rfl | hx
            · exact hpmax x hx hxk
            · exact absurd hkk (not_lt.2 hxk.le)
            · exact absurd (hkk.trans (hr x hx)) (not_lt.2 hxk.le)
        · intro hc x hx
          rcases (hmem x).1 hx with hx | rfl | hx
          · exact (ihl bl).2 hc x hx
          · exact hkk.le
          · exact (hkk.trans (hr x hx)).le

/-! ### Equivalence of the two engines: point queries and mutations -/

theorem mem_in_order_node (key : K) (val : V) (l r : Tree K V) (x : K) :
    x ∈ Rec.in_order (Tree.node key val l r) ↔
      x ∈ Rec.in_order l ∨ x = key ∨ x ∈ Rec.in_order r := by
  rw [show Rec.in_order (Tree.node key val l r) =
      Rec.in_order l ++ key :: Rec.in_order r from rfl]
  simp

theorem insert_eq (t : Tree K V) (k : K) (v : V) :
    Iter.insert t k v = Rec.insert t k v := by
  induction t with
  | nil => rfl
  | node key val l r ihl ihr =>
      rw [Iter.insert.eq_def, Rec.insert]
      dsimp only
      rcases lt_trichotomy k key with h1 | h1 | h1
      · simp only [if_pos h1, if_neg (not_lt.2 h1.le)]
        cases l with
        | nil => simp [Rec.insert]
        | node lk lv ll lr =>
            dsimp only
            rw [ihl]
      · subst h1
        simp only [if_neg (lt_irrefl k)]
      · simp only [if_pos h1, if_neg (not_lt.2 h1.le)]
        cases r with
        | nil => simp [Rec.insert]
        | node rk rv rl rr =>
            dsimp only
            rw [ihr]

theorem get_pair_eq (t : Tree K V) (k : K) :
    Iter.get_pair t k = Rec.get_pair t k := by
  induction t with
  | nil => rfl
  | node key val l r ihl ihr =>
      rw [Iter.get_pair, Rec.get_pair, Rec.search_pair]
      rw [Rec.get_pair] at ihl ihr
      rcases lt_trichotomy k key with h1 | h1 | h1
      · simp only [if_pos h1, if_neg (not_lt.2 h1.le)]
        exact ihl
      · subst h1
        simp only [if_neg (lt_irrefl k)]
      · simp only [if_pos h1, if_neg (not_lt.2 h1.le)]
        exact ihr

theorem get_eq (t : Tree K V) (k : K) : Iter.get t k = Rec.get t k := by
  rw [Iter.get, Rec.get, get_pair_eq]
  rfl

theorem get_or_eq (t : Tree K V) (k : K) (d : V) :
    Iter.get_or t k d = Rec.get_or t k d := by
  rw [Iter.get_or, Rec.get_or, get_eq]

theorem contains_eq (t : Tree K V) (k : K) :
    Iter.contains t k = Rec.contains t k := by
  rw [Iter.contains, Rec.contains, get_eq]

theorem min_pair_eq (t : Tree K V) : Iter.min_pair t = Rec.min_pair t := by
  induction t with
  | nil => rfl
  | node key val l r ihl ihr =>
      rw [Iter.min_pair.eq_def, Rec.min_pair]
      dsimp only
      cases l with
      | nil => simp [Rec.min_pair]
      | node lk lv ll lr =>
          dsimp only
          rw [ihl, Rec.min_pair]
          simp

theorem max_pair_eq (t : Tree K V) : Iter.max_pair t = Rec.max_pair t := by
  induction t with
  | nil => rfl
  | node key val l r ihl ihr =>
      rw [Iter.max_pair.eq_def, Rec.max_pair]
      dsimp only
      cases r with
      | nil => simp [Rec.max_pair]
      | node rk rv rl rr =>
          dsimp only
          rw [ihr, Rec.max_pair]
          simp

theorem remove_min_eq (l : Tree K V) : ∀ (key : K) (val : V) (r : Tree K V),
    Iter.remove_min key val l r = Rec.remove_min key val l r := by
  induction l with
  | nil => intro key val r; rfl
  | node lk lv ll lr ihll ihlr =>
      intro key val r
      rw [Iter.remove_min.eq_def, Rec.remove_min]
      dsimp only
      cases ll with
      | nil => simp [Rec.remove_min]
      | node a b cc dd =>
          dsimp only
          rw [ihll]

theorem delete_root_eq (key : K) (val : V) (l r : Tree K V) :
    Iter.delete_root key val l r = Rec.delete_root key val l r := by
  cases l <;> cases r <;>
    simp [Iter.delete_root, Rec.delete_root, Iter.combine_two_subtrees,
      Rec.combine_two_subtrees, remove_min_eq]

theorem deleteLoop_eq (t : Tree K V) (k : K) (h : rootKeyO t ≠ some k) :
    Iter.deleteLoop t k = Rec.delete t k := by
  induction t with
  | nil => rfl
  | node key val l r ihl ihr =>
      have hkey : key ≠ k := fun hc => h (by simp [rootKeyO, hc])
      rw [Iter.deleteLoop.eq_def, Rec.delete]
      dsimp only
      rcases lt_trichotomy k key with h1 | h1 | h1
      · simp only [if_pos h1, if_neg (not_lt.2 h1.le)]
        cases l with
        | nil => simp [Rec.delete]
        | node lk lv ll lr =>
            dsimp only
            by_cases hk : lk = k
            · rw [if_pos hk, delete_root_eq]
              subst hk
              rw [Rec.delete, if_neg (lt_irrefl lk), if_neg (lt_irrefl lk)]
            · rw [if_neg hk, ihl (by simp [rootKeyO, hk])]
      · exact absurd h1.symm hkey
      · simp only [if_pos h1, if_neg (not_lt.2 h1.le)]
        cases r with
        | nil => simp [Rec.delete]
        | node rk rv rl rr =>
            dsimp only
            by_cases hk : rk = k
            · rw [if_pos hk, delete_root_eq]
              subst hk
              rw [Rec.delete, if_neg (lt_irrefl rk), if_neg (lt_irrefl rk)]
            · rw [if_neg hk, ihr (by simp [rootKeyO, hk])]

theorem delete_eq (t : Tree K V) (k : K) : Iter.delete t k = Rec.delete t k := by
  cases t with
  | nil => rfl
  | node key val l r =>
      rw [Iter.delete]
      by_cases hk : key = k
      · subst hk
        rw [if_pos rfl, Rec.delete, if_neg (lt_irrefl key), if_neg (lt_irrefl key)]
        exact delete_root_eq key val l r
      · rw [if_neg hk]
        exact deleteLoop_eq (Tree.node key val l r) k (by simp [rootKeyO, hk])

theorem deleteTreeLoop_eq (t : Tree K V) (k : K) :
    Iter.deleteTreeLoop t k = Rec.Node.delete_tree t k := by
  induction t with
  | nil => rfl
  | node key val l r ihl ihr =>
      rw [Iter.deleteTreeLoop.eq_def, Rec.Node.delete_tree.eq_def]
      dsimp only
      rcases lt_trichotomy k key with h1 | h1 | h1
      · simp only [if_pos h1, if_neg (not_lt.2 h1.le)]
        cases l with
        | nil => rfl
        | node lk lv ll lr =>
            dsimp only
            by_cases hk : lk = k
            · rw [if_pos hk, if_pos hk]
            · rw [if_neg hk, if_neg hk, ihl]
      · subst h1
        simp only [if_neg (lt_irrefl k)]
      · simp only [if_pos h1, if_neg (not_lt.2 h1.le)]
        cases r with
        | nil => rfl
        | node rk rv rl rr =>
            dsimp only
            by_cases hk : rk = k
            · rw [if_pos hk, if_pos hk]
            · rw [if_neg hk, if_neg hk, ihr]

theorem delete_tree_eq (t : Tree K V) (k : K) :
    Iter.delete_tree t k = Rec.delete_tree t k := by
  cases t with
  | nil => rfl
  | node key val l r =>
      rw [Iter.delete_tree, Rec.delete_tree]
      by_cases hk : key = k
      · rw [if_pos hk, if_pos hk]
      · rw [if_neg hk, if_neg hk]
        exact deleteTreeLoop_eq (Tree.node key val l r) k

theorem removeTreeLoop_eq (t : Tree K V) (k : K) :
    Iter.removeTreeLoop t k = Rec.Node.remove_tree t k := by
  induction t with
  | nil => rfl
  | node key val l r ihl ihr =>
      rw [Iter.removeTreeLoop.eq_def, Rec.Node.remove_tree.eq_def]
      dsimp only
      rcases lt_trichotomy k key with h1 | h1 | h1
      · simp only [if_pos h1, if_neg (not_lt.2 h1.le)]
        cases l with
        | nil => rfl
        | node lk lv ll lr =>
            dsimp only
            by_cases hk : lk = k
            · rw [if_pos hk, if_pos hk]
            · rw [if_neg hk, if_neg hk, ihl]
      · subst h1
        simp only [if_neg (lt_irrefl k)]
      · simp only [if_pos h1, if_neg (not_lt.2 h1.le)]
        cases r with
        | nil => rfl
        | node rk rv rl rr =>
            dsimp only
            by_cases hk : rk = k
            · rw [if_pos hk, if_pos hk]
            · rw [if_neg hk, if_neg hk, ihr]

theorem remove_tree_eq (t : Tree K V) (k : K) :
    Iter.remove_tree t k = Rec.remove_tree t k := by
  cases t with
  | nil => rfl
  | node key val l r =>
      rw [Iter.remove_tree, Rec.remove_tree]
      by_cases hk : key = k
      · rw [if_pos hk, if_pos hk]
      · rw [if_neg hk, if_neg hk]
        exact removeTreeLoop_eq (Tree.node key val l r) k

theorem successor_gt_eq_min_pair (t : Tree K V) (k : K) (hb : BSTb t = true)
    (hgt : ∀ x ∈ Rec.in_order t, k < x) :
    Rec.successor t k = Rec.min_pair t := by
  induction t with
  | nil => rfl
  | node key val l r ihl ihr =>
      obtain ⟨hl, hr, bl, br⟩ := (bst_node_iff key val l r).1 hb
      have hkey : k < key := hgt key ((mem_in_order_node key val l r key).2
        (Or.inr (Or.inl rfl)))
      rw [Rec.successor, if_pos hkey, Rec.min_pair]
      cases l with
      | nil => simp [Rec.successor, Rec.min_pair, Option.or]
      | node lk lv ll lr =>
          rw [ihl bl (fun x hx =>
            hgt x ((mem_in_order_node key val _ r x).2 (Or.inl hx)))]
          rw [Rec.min_pair]
          simp [Option.or]

theorem predecessor_lt_eq_max_pair (t : Tree K V) (k : K) (hb : BSTb t = true)
    (hlt : ∀ x ∈ Rec.in_order t, x < k) :
    Rec.predecessor t k = Rec.max_pair t := by
  induction t with
  | nil => rfl
  | node key val l r ihl ihr =>
      obtain ⟨hl, hr, bl, br⟩ := (bst_node_iff key val l r).1 hb
      have hkey : key < k := hlt key ((mem_in_order_node key val l r key).2
        (Or.inr (Or.inl rfl)))
      rw [Rec.predecessor, if_pos hkey, Rec.max_pair]
      cases r with
      | nil => simp [Rec.predecessor, Rec.max_pair, Option.or]
      | node rk rv rl rr =>
          rw [ihr br (fun x hx =>
            hlt x ((mem_in_order_node key val l _ x).2 (Or.inr (Or.inr hx))))]
          rw [Rec.max_pair]
          simp [Option.or]

theorem succLoop_or (t : Tree K V) (k : K) (h : BSTb t = true) :
    ∀ cand, Iter.succLoop t cand k = (Rec.successor t k).or cand := by
  induction t with
  | nil => intro cand; rfl
  | node key val l r ihl ihr =>
      intro cand
      obtain ⟨hl, hr, bl, br⟩ := (bst_node_iff key val l r).1 h
      rw [Iter.succLoop, Rec.successor]
      rcases lt_trichotomy k key with h1 | h1 | h1
      · rw [if_pos h1, if_pos h1, ihl bl]
        cases Rec.successor l k <;> simp [Option.or]
      · subst h1
        simp only [if_neg (lt_irrefl k)]
        rw [ihr br, successor_gt_eq_min_pair r k br hr]
      · simp only [if_pos h1, if_neg (not_lt.2 h1.le)]
        exact ihr br cand

theorem successor_eq (t : Tree K V) (k : K) (h : BSTb t = true) :
    Iter.successor t k = Rec.successor t k := by
  rw [Iter.successor, succLoop_or t k h none]
  cases Rec.successor t k <;> rfl

theorem predLoop_or (t : Tree K V) (k : K) (h : BSTb t = true) :
    ∀ cand, Iter.predLoop t cand k = (Rec.predecessor t k).or cand := by
  induction t with
  | nil => intro cand; rfl
  | node key val l r ihl ihr =>
      intro cand
      obtain ⟨hl, hr, bl, br⟩ := (bst_node_iff key val l r).1 h
      rw [Iter.predLoop, Rec.predecessor]
      rcases lt_trichotomy key k with h1 | h1 | h1
      · rw [if_pos h1, if_pos h1, ihr br]
        cases Rec.predecessor r k <;> simp [Option.or]
      · subst h1
        simp only [if_neg (lt_irrefl key)]
        rw [ihl bl, predecessor_lt_eq_max_pair l key bl hl]
      · simp only [if_pos h1, if_neg (not_lt.2 h1.le)]
        exact ihl bl cand

theorem predecessor_eq (t : Tree K V) (k : K) (h : BSTb t = true) :
    Iter.predecessor t k = Rec.predecessor t k := by
  rw [Iter.predecessor, predLoop_or t k h none]
  cases Rec.predecessor t k <;> rfl

/-! ### Equivalence of the two engines: traversals -/

theorem rootKey_mem (t : Tree K V) (a : K) (h : rootKeyO t = some a) :
    a ∈ Rec.in_order t := by
  cases t with
  | nil => simp [rootKeyO] at h
  | node k v l r =>
      simp only [rootKeyO, Option.some_inj] at h
      exact (mem_in_order_node k v l r a).2 (Or.inr (Or.inl h.symm))

theorem prevOrderLoop_eq (cur : Tree K V) (stack : List (Tree K V)) :
    Iter.prevOrderLoop cur stack =
      Rec.prev_order cur ++ (stack.map fun s => Rec.prev_order (rightT s)).flatten := by
  induction cur, stack using Iter.prevOrderLoop.induct with
  | case1 k v l r stack ih =>
      rw [Iter.prevOrderLoop, ih]
      simp [Rec.prev_order, rightT]
  | case2 => simp [Iter.prevOrderLoop, Rec.prev_order]
  | case3 top rest ih =>
      rw [Iter.prevOrderLoop, ih]
      simp [Rec.prev_order]

theorem prev_order_eq (t : Tree K V) : Iter.prev_order t = Rec.prev_order t := by
  rw [Iter.prev_order, prevOrderLoop_eq]
  simp

/-- Keys a pushed stack node still owes to the inorder sequence: its own key
and then its right subtree. -/
def stackEntryIn (s : Tree K V) : List K :=
  match s with
  | .nil => []
  | .node k _ _ r => k :: Rec.in_order r

theorem inOrderLoop_eq (cur : Tree K V) (stack : List (Tree K V)) :
    Iter.inOrderLoop cur stack =
      Rec.in_order cur ++ (stack.map stackEntryIn).flatten := by
  induction cur, stack using Iter.inOrderLoop.induct with
  | case1 k v l r stack ih =>
      rw [Iter.inOrderLoop, ih]
      simp [Rec.in_order, stackEntryIn]
  | case2 => simp [Iter.inOrderLoop, Rec.in_order]
  | case3 rest ih =>
      rw [Iter.inOrderLoop, ih]
      simp [Rec.in_order, stackEntryIn]
  | case4 k v l r rest ih =>
      rw [Iter.inOrderLoop, ih]
      simp [Rec.in_order, stackEntryIn]

theorem in_order_eq (t : Tree K V) : Iter.in_order t = Rec.in_order t := by
  rw [Iter.in_order, inOrderLoop_eq]
  simp

/-- State of the `prev` register after the postorder loop has fully processed
a subtree: unchanged for an empty subtree, otherwise the subtree's root node
(the last node popped). -/
def lastVisited (s prev : Tree K V) : Tree K V :=
  match s with
  | .nil => prev
  | .node k v l r => .node k v l r

theorem postLoop_spec (s : Tree K V) :
    (Rec.in_order s).Nodup →
    ∀ (stack : List (Tree K V)) (prev : Tree K V) (fuel : Nat),
      (∀ pk, rootKeyO prev = some pk → pk ∉ Rec.in_order s) →
      Iter.postLoop (Iter.postCost s + fuel) s stack prev =
        Rec.post_order s ++ Iter.postLoop fuel .nil stack (lastVisited s prev) := by
  induction s with
  | nil =>
      intro _ stack prev fuel hprev
      simp [Iter.postCost, Rec.post_order, lastVisited]
  | node k v l r ihl ihr =>
      intro hn stack prev fuel hprev
      rw [show Rec.in_order (Tree.node k v l r) =
          Rec.in_order l ++ k :: Rec.in_order r from rfl] at hn
      obtain ⟨hnl, hnkr, hdisj⟩ := List.nodup_append.1 hn
      have hnr : (Rec.in_order r).Nodup := (List.nodup_cons.1 hnkr).2
      have hknotr : k ∉ Rec.in_order r := (List.nodup_cons.1 hnkr).1
      have hmem : ∀ x, x ∈ Rec.in_order (Tree.node k v l r) ↔
          x ∈ Rec.in_order l ∨ x = k ∨ x ∈ Rec.in_order r :=
        mem_in_order_node k v l r
      have hprevl : ∀ pk, rootKeyO prev = some pk → pk ∉ Rec.in_order l := by
        intro pk hpk hin
        exact hprev pk hpk ((hmem pk).2 (Or.inl hin))
      cases r with
      | nil =>
          have harith : Iter.postCost (Tree.node k v l .nil) + fuel =
              (Iter.postCost l + (1 + fuel)) + 1 := by
            simp only [Iter.postCost]
            omega
          rw [harith, Iter.postLoop]
          rw [ihl hnl (Tree.node k v l .nil :: stack) prev (1 + fuel) hprevl]
          rw [show (1 : Nat) + fuel = fuel + 1 from by omega, Iter.postLoop]
          rw [show Rec.post_order (Tree.node k v l .nil) =
              Rec.post_order l ++ Rec.post_order (.nil : Tree K V) ++ [k] from rfl]
          simp [Rec.post_order, lastVisited]
      | node rk rv rl rr =>
          have hrkmem : rk ∈ Rec.in_order (Tree.node rk rv rl rr) :=
            rootKey_mem _ rk rfl
          have harith : Iter.postCost (Tree.node k v l (Tree.node rk rv rl rr)) + fuel =
              (Iter.postCost l +
                (Iter.postCost (Tree.node rk rv rl rr) + 2 + fuel)) + 1 := by
            simp only [Iter.postCost]
            omega
          rw [harith, Iter.postLoop]
          rw [ihl hnl (Tree.node k v l (Tree.node rk rv rl rr) :: stack) prev
            (Iter.postCost (Tree.node rk rv rl rr) + 2 + fuel) hprevl]
          rw [show Iter.postCost (Tree.node rk rv rl rr) + 2 + fuel =
              (Iter.postCost (Tree.node rk rv rl rr) + (1 + fuel)) + 1 from by omega,
            Iter.postLoop]
          have hke : keyEqT (Tree.node rk rv rl rr) (lastVisited l prev) = false := by
            cases l with
            | nil =>
                rw [lastVisited]
                cases prev with
                | nil => rfl
                | node pk pv pl pr =>
                    simp only [keyEqT, decide_eq_false_iff_not]
                    intro hc
                    have hpkmem : pk ∈ Rec.in_order (Tree.node rk rv rl rr) := by
                      rw [← hc]
                      exact hrkmem
                    exact hprev pk (by simp [rootKeyO])
                      ((hmem pk).2 (Or.inr (Or.inr hpkmem)))
            | node lk lv ll lr =>
                rw [lastVisited]
                simp only [keyEqT, decide_eq_false_iff_not]
                intro hc
                have hlkl : lk ∈ Rec.in_order (Tree.node lk lv ll lr) :=
                  rootKey_mem _ lk rfl
                have hlkr : lk ∈ Rec.in_order (Tree.node rk rv rl rr) := by
                  rw [← hc]
                  exact hrkmem
                exact hdisj hlkl (List.mem_cons_of_mem _ hlkr)
          rw [if_neg (by simp [hke])]
          have hprevr : ∀ pk,
              rootKeyO (lastVisited l prev) = some pk →
              pk ∉ Rec.in_order (Tree.node rk rv rl rr) := by
            cases l with
            | nil =>
                rw [lastVisited]
                intro pk hpk hin
                exact hprev pk hpk ((hmem pk).2 (Or.inr (Or.inr hin)))
            | node lk lv ll lr =>
                rw [lastVisited]
                intro pk hpk hin
                simp only [rootKeyO, Option.some_inj] at hpk
                subst hpk
                exact hdisj (rootKey_mem (Tree.node lk lv ll lr) lk rfl)
                  (List.mem_cons_of_mem _ hin)
          rw [ihr hnr (Tree.node k v l (Tree.node rk rv rl rr) :: stack)
            (lastVisited l prev) (1 + fuel) hprevr]
          rw [show (1 : Nat) + fuel = fuel + 1 from by omega, Iter.postLoop]
          rw [lastVisited, if_pos (by simp [keyEqT])]
          rw [show Rec.post_order (Tree.node k v l (Tree.node rk rv rl rr)) =
              Rec.post_order l ++ Rec.post_order (Tree.node rk rv rl rr) ++ [k]
              from rfl]
          simp [lastVisited]

theorem post_order_eq (t : Tree K V) (hn : (Rec.in_order t).Nodup) :
    Iter.post_order t = Rec.post_order t := by
  rw [Iter.post_order]
  have h := postLoop_spec t hn [] Tree.nil 0 (by simp [rootKeyO])
  rw [Nat.add_zero] at h
  rw [h]
  cases t <;> simp [Iter.postLoop, lastVisited]

theorem level_order_eq (t : Tree K V) : Iter.level_order t = level_order t := rfl

/-! ### Reachable trees -/

theorem apply_eq (t : Tree K V) (op : Op K V) : applyIter t op = applyRec t op := by
  cases op with
  | ins k v => exact insert_eq t k v
  | del k => exact delete_eq t k
  | delTree k => exact delete_tree_eq t k
  | rmTree k =>
      simp only [applyIter, applyRec]
      rw [remove_tree_eq]

theorem run_eq (ops : List (Op K V)) : runIter ops = runRec ops := by
  rw [runIter, runRec]
  have h : ∀ t : Tree K V, ops.foldl applyIter t = ops.foldl applyRec t := by
    induction ops with
    | nil => intro t; rfl
    | cons op ops ih =>
        intro t
        rw [List.foldl_cons, List.foldl_cons, apply_eq, ih]
  exact h .nil

theorem BSTb_apply (t : Tree K V) (op : Op K V) (h : BSTb t = true) :
    BSTb (applyRec t op) = true := by
  cases op with
  | ins k v => exact BSTb_insert t k v h
  | del k => exact BSTb_delete t k h
  | delTree k => exact BSTb_delete_tree t k h
  | rmTree k => exact BSTb_remove_tree_fst t k h

theorem BSTb_run (ops : List (Op K V)) : BSTb (runRec ops) = true := by
  rw [runRec]
  have h : ∀ t : Tree K V, BSTb t = true → BSTb (ops.foldl applyRec t) = true := by
    induction ops with
    | nil => intro t ht; exact ht
    | cons op ops ih =>
        intro t ht
        rw [List.foldl_cons]
        exact ih _ (BSTb_apply t op ht)
  exact h .nil rfl

/-! ### Traversal lengths, memberships and materialization -/

theorem length_prev_order (t : Tree K V) : (Rec.prev_order t).length = size t := by
  induction t with
  | nil => rfl
  | node k v l r ihl ihr =>
      simp only [Rec.prev_order, size, List.length_cons, List.length_append, ihl, ihr]

theorem length_in_order (t : Tree K V) : (Rec.in_order t).length = size t := by
  induction t with
  | nil => rfl
  | node k v l r ihl ihr =>
      simp only [Rec.in_order, size, List.length_cons, List.length_append, ihl, ihr]
      omega

theorem length_post_order (t : Tree K V) : (Rec.post_order t).length = size t := by
  induction t with
  | nil => rfl
  | node k v l r ihl ihr =>
      simp only [Rec.post_order, size, List.length_append, List.length_cons,
        List.length_nil, ihl, ihr]

theorem levelOrderAux_length (q : List (Tree K V)) :
    (levelOrderAux q).length = (q.map size).sum := by
  induction q using levelOrderAux.induct with
  | case1 => simp [levelOrderAux]
  | case2 rest ih =>
      rw [levelOrderAux, ih]
      simp [size]
  | case3 k v l r rest ih =>
      rw [levelOrderAux, List.length_cons, ih]
      have hl : ((enq l).map size).sum = size l := by cases l <;> simp [enq, size]
      have hr : ((enq r).map size).sum = size r := by cases r <;> simp [enq, size]
      simp only [List.map_cons, List.sum_cons, List.map_append, List.sum_append,
        hl, hr, size]
      omega

theorem length_level_order (t : Tree K V) : (level_order t).length = size t := by
  rw [level_order, levelOrderAux_length]
  cases t <;> simp [enq, size]

theorem mem_prev_order (t : Tree K V) (x : K) :
    x ∈ Rec.prev_order t ↔ x ∈ Rec.in_order t := by
  induction t with
  | nil => simp [Rec.prev_order, Rec.in_order]
  | node k v l r ihl ihr =>
      rw [mem_in_order_node]
      simp only [Rec.prev_order, List.mem_cons, List.mem_append, ihl, ihr]
      tauto

theorem mem_post_order (t : Tree K V) (x : K) :
    x ∈ Rec.post_order t ↔ x ∈ Rec.in_order t := by
  induction t with
  | nil => simp [Rec.post_order, Rec.in_order]
  | node k v l r ihl ihr =>
      rw [mem_in_order_node]
      simp only [Rec.post_order, List.mem_append, List.mem_singleton, ihl, ihr]
      tauto

theorem mem_enq (s : Tree K V) (x : K) :
    (∃ t, t ∈ enq s ∧ x ∈ Rec.in_order t) ↔ x ∈ Rec.in_order s := by
  cases s <;> simp [enq, Rec.in_order]

theorem mem_levelOrderAux (q : List (Tree K V)) (x : K) :
    x ∈ levelOrderAux q ↔ ∃ t, t ∈ q ∧ x ∈ Rec.in_order t := by
  induction q using levelOrderAux.induct with
  | case1 => simp [levelOrderAux]
  | case2 rest ih =>
      rw [levelOrderAux, ih]
      simp [Rec.in_order]
  | case3 k v l r rest ih =>
      rw [levelOrderAux, List.mem_cons, ih]
      simp only [List.mem_append, List.mem_cons]
      constructor
      · rintro (rfl | ⟨t, (ht | ht) | ht, hx⟩)
        · exact ⟨Tree.node x v l r, Or.inl rfl,
            (mem_in_order_node x v l r x).2 (Or.inr (Or.inl rfl))⟩
        · exact ⟨t, Or.inr ht, hx⟩
        · exact ⟨Tree.node k v l r, Or.inl rfl, (mem_in_order_node k v l r x).2
            (Or.inl ((mem_enq l x).1 ⟨t, ht, hx⟩))⟩
        · exact ⟨Tree.node k v l r, Or.inl rfl, (mem_in_order_node k v l r x).2
            (Or.inr (Or.inr ((mem_enq r x).1 ⟨t, ht, hx⟩)))⟩
      · rintro ⟨t, rfl | ht, hx⟩
        · rcases (mem_in_order_node k v l r x).1 hx with hx | rfl | hx
          · obtain ⟨t2, ht2, hx2⟩ := (mem_enq l x).2 hx
            exact Or.inr ⟨t2, Or.inl (Or.inr ht2), hx2⟩
          · exact Or.inl rfl
          · obtain ⟨t2, ht2, hx2⟩ := (mem_enq r x).2 hx
            exact Or.inr ⟨t2, Or.inr ht2, hx2⟩
        · exact Or.inr ⟨t, Or.inl (Or.inl ht), hx⟩

theorem mem_level_order (t : Tree K V) (x : K) :
    x ∈ level_order t ↔ x ∈ Rec.in_order t := by
  rw [level_order, mem_levelOrderAux]
  exact mem_enq t x

theorem traverse_pairs_spec (t : Tree K V) (h : BSTb t = true) (ks : List K)
    (hks : ∀ x ∈ ks, x ∈ Rec.in_order t) :
    (Rec.traverse_pairs t ks).map Prod.fst = ks ∧
    ∀ p ∈ Rec.traverse_pairs t ks, Rec.get_pair t p.1 = some p := by
  induction ks with
  | nil => simp [Rec.traverse_pairs]
  | cons a ks ih =>
      have ha : a ∈ Rec.in_order t := hks a (List.mem_cons_self a ks)
      have hc : Rec.contains t a = true := (contains_iff_mem t a h).2 ha
      rw [Rec.contains, Rec.get, Option.isSome_map'] at hc
      obtain ⟨p, hp⟩ := Option.isSome_iff_exists.1 hc
      have hfst := search_pair_fst t a p hp
      obtain ⟨ih1, ih2⟩ := ih (fun x hx => hks x (List.mem_cons_of_mem _ hx))
      have hgp : Rec.get_pair t a = some p := hp
      constructor
      · rw [Rec.traverse_pairs, List.filterMap_cons, hgp]
        rw [List.map_cons, hfst]
        rw [show ks.filterMap (fun k => Rec.get_pair t k) = Rec.traverse_pairs t ks
          from rfl]
        rw [ih1]
      · intro q hq
        rw [Rec.traverse_pairs, List.filterMap_cons, hgp] at hq
        rw [show ks.filterMap (fun k => Rec.get_pair t k) = Rec.traverse_pairs t ks
          from rfl] at hq
        rcases List.mem_cons.1 hq with rfl | hq
        · rw [hfst]
          exact hgp
        · exact ih2 q hq

theorem traverse_pairs_eq (t : Tree K V) (ks : List K) :
    Iter.traverse_pairs t ks = Rec.traverse_pairs t ks := by
  rw [Iter.traverse_pairs, Rec.traverse_pairs]
  have h : (fun k => Iter.get_pair t k) = fun k => Rec.get_pair t k :=
    funext (get_pair_eq t)
  rw [h]

theorem preorder_iter_eq (t : Tree K V) :
    Iter.preorder_iter t = Rec.preorder_iter t := by
  rw [Iter.preorder_iter, Rec.preorder_iter, prev_order_eq, traverse_pairs_eq]

theorem inorder_iter_eq (t : Tree K V) :
    Iter.inorder_iter t = Rec.inorder_iter t := by
  rw [Iter.inorder_iter, Rec.inorder_iter, in_order_eq, traverse_pairs_eq]

theorem postorder_iter_eq (t : Tree K V) (hn : (Rec.in_order t).Nodup) :
    Iter.postorder_iter t = Rec.postorder_iter t := by
  rw [Iter.postorder_iter, Rec.postorder_iter, post_order_eq t hn, traverse_pairs_eq]

theorem levelorder_iter_eq (t : Tree K V) :
    Iter.levelorder_iter t = Rec.levelorder_iter t := by
  rw [Iter.levelorder_iter, Rec.levelorder_iter, traverse_pairs_eq]
  rfl

/-! ### The claims -/

/-- C1: for every sequence of mutating operations applied from `new()`, the
recursive engine and the explicit-stack iterative engine produce identical
externally observable results: the same resulting tree, the same optional
answers to every point query (`get`, `get_pair`, `get_or`, `contains`,
`min_pair`, `max_pair`, `successor`, `predecessor`), the same trees after
every further mutation (`insert`, `delete`, `delete_tree`, and both
components of `remove_tree`), and byte-identical key orderings and
materialized pair sequences for all four traversals. -/
theorem C1_engine_equivalence (ops : List (Op K V)) (k : K) (v d : V) :
    runIter ops = runRec ops ∧
    Iter.get_pair (runIter ops) k = Rec.get_pair (runRec ops) k ∧
    Iter.get (runIter ops) k = Rec.get (runRec ops) k ∧
    Iter.get_or (runIter ops) k d = Rec.get_or (runRec ops) k d ∧
    Iter.contains (runIter ops) k = Rec.contains (runRec ops) k ∧
    Iter.min_pair (runIter ops) = Rec.min_pair (runRec ops) ∧
    Iter.max_pair (runIter ops) = Rec.max_pair (runRec ops) ∧
    Iter.successor (runIter ops) k = Rec.successor (runRec ops) k ∧
    Iter.predecessor (runIter ops) k = Rec.predecessor (runRec ops) k ∧
    Iter.insert (runIter ops) k v = Rec.insert (runRec ops) k v ∧
    Iter.delete (runIter ops) k = Rec.delete (runRec ops) k ∧
    Iter.delete_tree (runIter ops) k = Rec.delete_tree (runRec ops) k ∧
    Iter.remove_tree (runIter ops) k = Rec.remove_tree (runRec ops) k ∧
    Iter.prev_order (runIter ops) = Rec.prev_order (runRec ops) ∧
    Iter.in_order (runIter ops) = Rec.in_order (runRec ops) ∧
    Iter.post_order (runIter ops) = Rec.post_order (runRec ops) ∧
    Iter.level_order (runIter ops) = level_order (runRec ops) ∧
    Iter.preorder_iter (runIter ops) = Rec.preorder_iter (runRec ops) ∧
    Iter.inorder_iter (runIter ops) = Rec.inorder_iter (runRec ops) ∧
    Iter.postorder_iter (runIter ops) = Rec.postorder_iter (runRec ops) ∧
    Iter.levelorder_iter (runIter ops) = Rec.levelorder_iter (runRec ops) := by
  have hb := BSTb_run ops
  have hnd := nodup_in_order _ hb
  rw [run_eq]
  exact ⟨rfl, get_pair_eq _ k, get_eq _ k, get_or_eq _ k d, contains_eq _ k,
    min_pair_eq _, max_pair_eq _, successor_eq _ k hb, predecessor_eq _ k hb,
    insert_eq _ k v, delete_eq _ k, delete_tree_eq _ k, remove_tree_eq _ k,
    prev_order_eq _, in_order_eq _, post_order_eq _ hnd, level_order_eq _,
    preorder_iter_eq _, inorder_iter_eq _, postorder_iter_eq _ hnd,
    levelorder_iter_eq _⟩

/-- C2: every tree reachable from `new()` by a sequence of `insert`,
`delete`, `delete_tree`, `remove_tree` operations satisfies the BST
invariant (`BSTb`: for every node, all left-subtree keys are strictly
smaller and all right-subtree keys strictly larger, so no two nodes share a
key), and consequently the inorder key sequence is strictly ascending and
duplicate-free, and the keys of the materialized `inorder_iter` sequence are
strictly ascending — in both engines. -/
theorem C2_reachable_invariant (ops : List (Op K V)) :
    BSTb (runRec ops) = true ∧
    BSTb (runIter ops) = true ∧
    List.Pairwise (· < ·) (Rec.in_order (runRec ops)) ∧
    (Rec.in_order (runRec ops)).Nodup ∧
    List.Pairwise (· < ·) ((Rec.inorder_iter (runRec ops)).map Prod.fst) ∧
    List.Pairwise (· < ·) ((Iter.inorder_iter (runIter ops)).map Prod.fst) := by
  have hb := BSTb_run ops
  have hpw := (BSTb_iff_pairwise _).1 hb
  have hios : (Rec.inorder_iter (runRec ops)).map Prod.fst =
      Rec.in_order (runRec ops) :=
    (traverse_pairs_spec _ hb _ (fun x hx => hx)).1
  refine ⟨hb, by rw [run_eq]; exact hb, hpw, nodup_in_order _ hb, ?_, ?_⟩
  · rw [hios]
    exact hpw
  · rw [run_eq, inorder_iter_eq, hios]
    exact hpw

/-- C3: on a BST containing `k`, `delete k` removes exactly that key (the
inorder key sequence of the result is the original one with `k` filtered
out), `contains k` becomes false while every other key's reachability is
unchanged; at a node with two children the deleted node is replaced by the
minimum of its right subtree (the new root pair of the rebuilt subtree is
`min_pair` of the right child and the left subtree is kept), the same
`delete` applying whether the node is the root or internal; the iterative
engine's `delete` agrees everywhere. -/
theorem C3_delete_splice (t : Tree K V) (k : K)
    (h1 : BSTb t = true) (h2 : Rec.contains t k = true) :
    Rec.in_order (Rec.delete t k) =
      (Rec.in_order t).filter (fun x => decide (x ≠ k)) ∧
    Rec.contains (Rec.delete t k) k = false ∧
    (∀ x, x ≠ k → Rec.contains (Rec.delete t k) x = Rec.contains t x) ∧
    (∀ (v : V) (l : Tree K V), Rec.delete (Tree.node k v l Tree.nil) k = l) ∧
    (∀ (v : V) (r : Tree K V), Rec.delete (Tree.node k v Tree.nil r) k = r) ∧
    (∀ (v : V) (l r : Tree K V), l ≠ Tree.nil → r ≠ Tree.nil →
        rootPairO (Rec.delete (Tree.node k v l r) k) = Rec.min_pair r ∧
        leftT (Rec.delete (Tree.node k v l r) k) = l) ∧
    Iter.delete t k = Rec.delete t k := by
  have hdel := in_order_delete t k h1
  have hbd := BSTb_delete t k h1
  refine ⟨hdel, ?_, ?_, ?_, ?_, ?_, delete_eq t k⟩
  · cases hcc : Rec.contains (Rec.delete t k) k with
    | false => rfl
    | true =>
        exfalso
        have hm := (contains_iff_mem _ k hbd).1 hcc
        rw [hdel] at hm
        simp at hm
  · intro x hx
    have hmm : x ∈ Rec.in_order (Rec.delete t k) ↔ x ∈ Rec.in_order t := by
      rw [hdel]
      simp [List.mem_filter, hx]
    cases hct : Rec.contains t x with
    | false =>
        cases hcd : Rec.contains (Rec.delete t k) x with
        | false => rfl
        | true =>
            exfalso
            have := (contains_iff_mem t x h1).2 (hmm.1 ((contains_iff_mem _ x hbd).1 hcd))
            rw [hct] at this
            cases this
    | true =>
        exact (contains_iff_mem _ x hbd).2 (hmm.2 ((contains_iff_mem t x h1).1 hct))
  · intro v l
    rw [Rec.delete, if_neg (lt_irrefl k), if_neg (lt_irrefl k)]
    cases l <;> rfl
  · intro v r
    rw [Rec.delete, if_neg (lt_irrefl k), if_neg (lt_irrefl k)]
    cases r <;> rfl
  · intro v l r hl hr
    rw [Rec.delete, if_neg (lt_irrefl k), if_neg (lt_irrefl k)]
    cases l with
    | nil => exact absurd rfl hl
    | node lk lv ll lr =>
        cases r with
        | nil => exact absurd rfl hr
        | node rk rv rl rr =>
            rw [Rec.delete_root, Rec.combine_two_subtrees]
            constructor
            · rw [rootPairO, ← remove_min_snd_min_pair]
            · rfl

/-- C4: on a BST, `successor k` returns a pair actually stored in the tree
whose key is strictly greater than `k` and minimal among all stored keys
exceeding `k` (in particular never `k` itself, present or not), and returns
`none` exactly when no stored key exceeds `k`; `predecessor` is the mirror
image; hence the successor of the maximum key and the predecessor of the
minimum key are `none`.  The iterative engine agrees on both queries. -/
theorem C4_successor_predecessor (t : Tree K V) (k : K) (h : BSTb t = true) :
    (∀ p, Rec.successor t k = some p →
        k < p.1 ∧ Rec.get_pair t p.1 = some p ∧
        ∀ x ∈ Rec.in_order t, k < x → p.1 ≤ x) ∧
    (Rec.successor t k = none → ∀ x ∈ Rec.in_order t, x ≤ k) ∧
    (∀ p, Rec.predecessor t k = some p →
        p.1 < k ∧ Rec.get_pair t p.1 = some p ∧
        ∀ x ∈ Rec.in_order t, x < k → x ≤ p.1) ∧
    (Rec.predecessor t k = none → ∀ x ∈ Rec.in_order t, k ≤ x) ∧
    (∀ p, Rec.max_pair t = some p → Rec.successor t p.1 = none) ∧
    (∀ p, Rec.min_pair t = some p → Rec.predecessor t p.1 = none) ∧
    Iter.successor t k = Rec.successor t k ∧
    Iter.predecessor t k = Rec.predecessor t k := by
  refine ⟨?_, (successor_spec t k h).2, ?_, (predecessor_spec t k h).2, ?_, ?_,
    successor_eq t k h, predecessor_eq t k h⟩
  · intro p hp
    obtain ⟨hpm, hpk, hmin⟩ := (successor_spec t k h).1 p hp
    exact ⟨hpk, search_pair_of_mem t p.1 p.2 h hpm, hmin⟩
  · intro p hp
    obtain ⟨hpm, hpk, hmax⟩ := (predecessor_spec t k h).1 p hp
    exact ⟨hpk, search_pair_of_mem t p.1 p.2 h hpm, hmax⟩
  · intro p hp
    cases hs : Rec.successor t p.1 with
    | none => rfl
    | some q =>
        exfalso
        obtain ⟨hqm, hqk, _⟩ := (successor_spec t p.1 h).1 q hs
        have hq1 : q.1 ∈ Rec.in_order t := by
          rw [in_order_eq_pairs_fst]
          exact List.mem_map_of_mem Prod.fst hqm
        exact absurd hqk (not_lt.2 (max_pair_ub t p h hp q.1 hq1))
  · intro p hp
    cases hs : Rec.predecessor t p.1 with
    | none => rfl
    | some q =>
        exfalso
        obtain ⟨hqm, hqk, _⟩ := (predecessor_spec t p.1 h).1 q hs
        have hq1 : q.1 ∈ Rec.in_order t := by
          rw [in_order_eq_pairs_fst]
          exact List.mem_map_of_mem Prod.fst hqm
        exact absurd hqk (not_lt.2 (min_pair_lb t p h hp q.1 hq1))

/-- C5: inserting `k` twice leaves the second value bound (`get k = v2`),
the key set and node count unchanged from the first insert; a single insert
grows the tree by exactly one node when `k` was absent and by none when
present (`insert` is total and always leaves `k` present); the iterative
engine's `insert` agrees. -/
theorem C5_insert_overwrite (t : Tree K V) (k : K) (v1 v2 : V) :
    Rec.get (Rec.insert (Rec.insert t k v1) k v2) k = some v2 ∧
    (∀ x, x ∈ Rec.in_order (Rec.insert (Rec.insert t k v1) k v2) ↔
        x ∈ Rec.in_order (Rec.insert t k v1)) ∧
    size (Rec.insert (Rec.insert t k v1) k v2) = size (Rec.insert t k v1) ∧
    size (Rec.insert t k v1) =
      (if Rec.contains t k then size t else size t + 1) ∧
    Rec.contains (Rec.insert t k v1) k = true ∧
    Iter.insert t k v1 = Rec.insert t k v1 := by
  refine ⟨?_, ?_, ?_, size_insert t k v1, contains_insert_self t k v1,
    insert_eq t k v1⟩
  · rw [Rec.get, search_pair_insert_self]
    rfl
  · intro x
    rw [mem_in_order_insert]
    constructor
    · intro hx2
      rcases hx2 with hx2 | hx2
      · exact (mem_in_order_insert t k v1 x).2 (Or.inl hx2)
      · exact hx2
    · intro hx
      exact Or.inr hx
  · rw [size_insert, contains_insert_self]
    simp

/-- C6: excising the subtree at a present key `k` partitions the key set:
the keys of the shrunken source tree and of the returned tree are disjoint
and their union is the original key set; the returned tree is exactly the
original subtree rooted at `k` (shape and contents, root key `k`); when `k`
is the root key the whole tree is returned and the source becomes empty.
The iterative engine's `remove_tree` agrees. -/
theorem C6_remove_tree_partition (t : Tree K V) (k : K)
    (h1 : BSTb t = true) (h2 : Rec.contains t k = true) :
    (∀ x, ¬(x ∈ Rec.in_order (Rec.remove_tree t k).1 ∧
            x ∈ Rec.in_order (Rec.remove_tree t k).2)) ∧
    (∀ x, x ∈ Rec.in_order t ↔
        (x ∈ Rec.in_order (Rec.remove_tree t k).1 ∨
         x ∈ Rec.in_order (Rec.remove_tree t k).2)) ∧
    (Rec.remove_tree t k).2 = find_node t k ∧
    rootKeyO (Rec.remove_tree t k).2 = some k ∧
    (rootKeyO t = some k → (Rec.remove_tree t k).1 = Tree.nil ∧
        (Rec.remove_tree t k).2 = t) ∧
    Iter.remove_tree t k = Rec.remove_tree t k := by
  obtain ⟨pre, post, hsp, hfst⟩ := remove_tree_splice t k
  have hnd : (Rec.in_order t).Nodup := nodup_in_order t h1
  rw [hsp] at hnd
  obtain ⟨hnd1, hnd2, hdisj1⟩ := List.nodup_append.1 hnd
  obtain ⟨hndp, hndm, hdisj2⟩ := List.nodup_append.1 hnd1
  refine ⟨?_, ?_, remove_tree_snd_eq_find t k, ?_, ?_, remove_tree_eq t k⟩
  · rintro x ⟨hx1, hx2⟩
    rw [hfst] at hx1
    rcases List.mem_append.1 hx1 with hx1 | hx1
    · exact hdisj2 hx1 hx2
    · exact hdisj1 (List.mem_append_right pre hx2) hx1
  · intro x
    rw [hsp, hfst]
    simp only [List.mem_append]
    tauto
  · rw [remove_tree_snd_eq_find]
    exact find_node_root_key t k h2
  · intro hroot
    cases t with
    | nil => simp [rootKeyO] at hroot
    | node key val l r =>
        simp only [rootKeyO, Option.some_inj] at hroot
        rw [Rec.remove_tree, if_pos hroot]
        exact ⟨rfl, rfl⟩

/-- C7: deleting the whole branch at a present key `k` makes `k` and every
key in the subtree that was rooted at `k` unreachable, leaves every key
outside that subtree reachable, and empties the tree when `k` is the root
key; no splicing happens — the removed keys are exactly the keys of the
excised subtree `find_node t k`.  The iterative engine agrees. -/
theorem C7_delete_tree_branch (t : Tree K V) (k : K)
    (h1 : BSTb t = true) (h2 : Rec.contains t k = true) :
    k ∈ Rec.in_order (find_node t k) ∧
    (∀ x ∈ Rec.in_order (find_node t k),
        Rec.contains (Rec.delete_tree t k) x = false) ∧
    (∀ x, Rec.contains t x = true → x ∉ Rec.in_order (find_node t k) →
        Rec.contains (Rec.delete_tree t k) x = true) ∧
    (rootKeyO t = some k → Rec.delete_tree t k = Tree.nil) ∧
    Iter.delete_tree t k = Rec.delete_tree t k := by
  obtain ⟨pre, post, hsp, hfst⟩ := remove_tree_splice t k
  have hnd : (Rec.in_order t).Nodup := nodup_in_order t h1
  rw [hsp] at hnd
  obtain ⟨hnd1, hnd2, hdisj1⟩ := List.nodup_append.1 hnd
  obtain ⟨hndp, hndm, hdisj2⟩ := List.nodup_append.1 hnd1
  have hbfst := BSTb_remove_tree_fst t k h1
  have hfind := remove_tree_snd_eq_find t k
  refine ⟨?_, ?_, ?_, ?_, delete_tree_eq t k⟩
  · exact rootKey_mem _ k (find_node_root_key t k h2)
  · intro x hx
    rw [← hfind] at hx
    rw [delete_tree_eq_remove_fst]
    cases hcd : Rec.contains (Rec.remove_tree t k).1 x with
    | false => rfl
    | true =>
        exfalso
        have hm := (contains_iff_mem _ x hbfst).1 hcd
        rw [hfst] at hm
        rcases List.mem_append.1 hm with hm | hm
        · exact hdisj2 hm hx
        · exact hdisj1 (List.mem_append_right pre hx) hm
  · intro x hcx hnx
    rw [← hfind] at hnx
    rw [delete_tree_eq_remove_fst]
    apply (contains_iff_mem _ x hbfst).2
    rw [hfst]
    have hm := (contains_iff_mem t x h1).1 hcx
    rw [hsp] at hm
    rcases List.mem_append.1 hm with hm | hm
    · rcases List.mem_append.1 hm with hm | hm
      · exact List.mem_append_left post hm
      · exact absurd hm hnx
    · exact List.mem_append_right pre hm
  · intro hroot
    cases t with
    | nil => simp [rootKeyO] at hroot
    | node key val l r =>
        simp only [rootKeyO, Option.some_inj] at hroot
        rw [Rec.delete_tree, if_pos hroot]

/-- C8: on a key not present in the tree, `delete` and `delete_tree` are
exact no-ops (the tree is returned unchanged, no error), and `remove_tree`
leaves the source unchanged while returning a valid empty tree (`is_empty`
answers true on it) — in both engines. -/
theorem C8_missing_key_noop (t : Tree K V) (k : K)
    (h : Rec.contains t k = false) :
    Rec.delete t k = t ∧
    Rec.delete_tree t k = t ∧
    Rec.remove_tree t k = (t, Tree.nil) ∧
    is_empty (Rec.remove_tree t k).2 = true ∧
    Iter.delete t k = t ∧
    Iter.delete_tree t k = t ∧
    Iter.remove_tree t k = (t, Tree.nil) := by
  have hd := delete_noop t k h
  have hdt := delete_tree_noop t k h
  have hrt := remove_tree_noop t k h
  refine ⟨hd, hdt, hrt, by rw [hrt]; rfl, by rw [delete_eq, hd],
    by rw [delete_tree_eq, hdt], by rw [remove_tree_eq, hrt]⟩

/-- Operation sequence of the spec's concrete scenario. -/
def ops9 : List (Op Int Char) :=
  [.ins 8 'h', .ins 5 'e', .ins 3 'c', .ins 2 'b', .ins 4 'd', .ins 6 'f',
   .ins 7 'g', .ins 15 'o', .ins 12 'l', .ins 17 'q', .ins 10 'j', .ins 14 'n',
   .del 12, .del 6, .del 8]

/-- Tree of the spec's concrete scenario (recursive engine). -/
def t9 : Tree Int Char := runRec ops9

/-- C9: inserting keys 8,5,3,2,4,6,7,15,12,17,10,14 with values
h,e,c,b,d,f,g,o,l,q,j,n and then deleting 12, 6 and 8 yields a tree in
which 5 is present, 12, 6, 8 are absent, the successor of 4 is (5, e), and
the preorder iterator yields exactly
(10,j),(5,e),(3,c),(2,b),(4,d),(7,g),(15,o),(14,n),(17,q); the iterative
engine reaches the same tree and yields the same preorder sequence. -/
theorem C9_concrete_scenario :
    Rec.contains t9 5 = true ∧
    Rec.contains t9 12 = false ∧
    Rec.contains t9 6 = false ∧
    Rec.contains t9 8 = false ∧
    Rec.successor t9 4 = some (5, 'e') ∧
    Rec.preorder_iter t9 =
      [(10, 'j'), (5, 'e'), (3, 'c'), (2, 'b'), (4, 'd'), (7, 'g'),
       (15, 'o'), (14, 'n'), (17, 'q')] ∧
    runIter ops9 = t9 ∧
    Iter.preorder_iter (runIter ops9) = Rec.preorder_iter t9 := by
  refine ⟨by decide, by decide, by decide, by decide, by decide, by decide,
    run_eq ops9, ?_⟩
  rw [run_eq]
  exact preorder_iter_eq t9

/-- C10: on any tree satisfying the BST invariant, each of the four
traversal iterators yields exactly one pair per node — the key list each
materialization walks has length `size t`, every key re-resolves through
`get_pair` (so the `None`-skip branch never fires and the pair list projects
back onto the full key list), and each yielded pair is the stored pair of
its key.  The iterative engine's materialized iterators coincide. -/
theorem C10_traversal_lookup_total (t : Tree K V) (h : BSTb t = true) :
    ((Rec.preorder_iter t).length = size t ∧
      (Rec.preorder_iter t).map Prod.fst = Rec.prev_order t ∧
      (Rec.prev_order t).length = size t ∧
      ∀ p ∈ Rec.preorder_iter t, Rec.get_pair t p.1 = some p) ∧
    ((Rec.inorder_iter t).length = size t ∧
      (Rec.inorder_iter t).map Prod.fst = Rec.in_order t ∧
      (Rec.in_order t).length = size t ∧
      ∀ p ∈ Rec.inorder_iter t, Rec.get_pair t p.1 = some p) ∧
    ((Rec.postorder_iter t).length = size t ∧
      (Rec.postorder_iter t).map Prod.fst = Rec.post_order t ∧
      (Rec.post_order t).length = size t ∧
      ∀ p ∈ Rec.postorder_iter t, Rec.get_pair t p.1 = some p) ∧
    ((Rec.levelorder_iter t).length = size t ∧
      (Rec.levelorder_iter t).map Prod.fst = level_order t ∧
      (level_order t).length = size t ∧
      ∀ p ∈ Rec.levelorder_iter t, Rec.get_pair t p.1 = some p) ∧
    Iter.preorder_iter t = Rec.preorder_iter t ∧
    Iter.inorder_iter t = Rec.inorder_iter t ∧
    Iter.postorder_iter t = Rec.postorder_iter t ∧
    Iter.levelorder_iter t = Rec.levelorder_iter t := by
  have hpre := traverse_pairs_spec t h (Rec.prev_order t)
    (fun x hx => (mem_prev_order t x).1 hx)
  have hin := traverse_pairs_spec t h (Rec.in_order t) (fun x hx => hx)
  have hpost := traverse_pairs_spec t h (Rec.post_order t)
    (fun x hx => (mem_post_order t x).1 hx)
  have hlev := traverse_pairs_spec t h (level_order t)
    (fun x hx => (mem_level_order t x).1 hx)
  have hlen : ∀ (ps : List (K × V)) (ks : List K), ps.map Prod.fst = ks →
      ks.length = size t → ps.length = size t := by
    intro ps ks hmap hks
    rw [← hks, ← hmap, List.length_map]
  exact ⟨⟨hlen _ _ hpre.1 (length_prev_order t), hpre.1, length_prev_order t, hpre.2⟩,
    ⟨hlen _ _ hin.1 (length_in_order t), hin.1, length_in_order t, hin.2⟩,
    ⟨hlen _ _ hpost.1 (length_post_order t), hpost.1, length_post_order t, hpost.2⟩,
    ⟨hlen _ _ hlev.1 (length_level_order t), hlev.1, length_level_order t, hlev.2⟩,
    preorder_iter_eq t, inorder_iter_eq t,
    postorder_iter_eq t (nodup_in_order t h), levelorder_iter_eq t⟩

/-- Small witness tree: 2 at the root, 1 on the left, 3 on the right. -/
def w0 : Tree Int Char :=
  .node 2 'b' (.node 1 'a' .nil .nil) (.node 3 'c' .nil .nil)

theorem C3_delete_splice_witness :
    BSTb w0 = true ∧ Rec.contains w0 2 = true ∧
    (Rec.in_order (Rec.delete w0 2) =
        (Rec.in_order w0).filter (fun x => decide (x ≠ 2)) ∧
      Rec.contains (Rec.delete w0 2) 2 = false ∧
      (∀ x, x ≠ 2 → Rec.contains (Rec.delete w0 2) x = Rec.contains w0 x) ∧
      (∀ (v : Char) (l : Tree Int Char), Rec.delete (Tree.node 2 v l Tree.nil) 2 = l) ∧
      (∀ (v : Char) (r : Tree Int Char), Rec.delete (Tree.node 2 v Tree.nil r) 2 = r) ∧
      (∀ (v : Char) (l r : Tree Int Char), l ≠ Tree.nil → r ≠ Tree.nil →
          rootPairO (Rec.delete (Tree.node 2 v l r) 2) = Rec.min_pair r ∧
          leftT (Rec.delete (Tree.node 2 v l r) 2) = l) ∧
      Iter.delete w0 2 = Rec.delete w0 2) :=
  ⟨by decide, by decide, C3_delete_splice w0 2 (by decide) (by decide)⟩

theorem C4_successor_predecessor_witness :
    BSTb w0 = true ∧
    ((∀ p, Rec.successor w0 1 = some p →
        1 < p.1 ∧ Rec.get_pair w0 p.1 = some p ∧
        ∀ x ∈ Rec.in_order w0, 1 < x → p.1 ≤ x) ∧
      (Rec.successor w0 1 = none → ∀ x ∈ Rec.in_order w0, x ≤ 1) ∧
      (∀ p, Rec.predecessor w0 1 = some p →
        p.1 < 1 ∧ Rec.get_pair w0 p.1 = some p ∧
        ∀ x ∈ Rec.in_order w0, x < 1 → x ≤ p.1) ∧
      (Rec.predecessor w0 1 = none → ∀ x ∈ Rec.in_order w0, 1 ≤ x) ∧
      (∀ p, Rec.max_pair w0 = some p → Rec.successor w0 p.1 = none) ∧
      (∀ p, Rec.min_pair w0 = some p → Rec.predecessor w0 p.1 = none) ∧
      Iter.successor w0 1 = Rec.successor w0 1 ∧
      Iter.predecessor w0 1 = Rec.predecessor w0 1) :=
  ⟨by decide, C4_successor_predecessor w0 1 (by decide)⟩

theorem C6_remove_tree_partition_witness :
    BSTb w0 = true ∧ Rec.contains w0 1 = true ∧
    ((∀ x, ¬(x ∈ Rec.in_order (Rec.remove_tree w0 1).1 ∧
            x ∈ Rec.in_order (Rec.remove_tree w0 1).2)) ∧
      (∀ x, x ∈ Rec.in_order w0 ↔
        (x ∈ Rec.in_order (Rec.remove_tree w0 1).1 ∨
         x ∈ Rec.in_order (Rec.remove_tree w0 1).2)) ∧
      (Rec.remove_tree w0 1).2 = find_node w0 1 ∧
      rootKeyO (Rec.remove_tree w0 1).2 = some 1 ∧
      (rootKeyO w0 = some 1 → (Rec.remove_tree w0 1).1 = Tree.nil ∧
        (Rec.remove_tree w0 1).2 = w0) ∧
      Iter.remove_tree w0 1 = Rec.remove_tree w0 1) :=
  ⟨by decide, by decide, C6_remove_tree_partition w0 1 (by decide) (by decide)⟩

theorem C7_delete_tree_branch_witness :
    BSTb w0 = true ∧ Rec.contains w0 3 = true ∧
    ((3 : Int) ∈ Rec.in_order (find_node w0 3) ∧
      (∀ x ∈ Rec.in_order (find_node w0 3),
        Rec.contains (Rec.delete_tree w0 3) x = false) ∧
      (∀ x, Rec.contains w0 x = true → x ∉ Rec.in_order (find_node w0 3) →
        Rec.contains (Rec.delete_tree w0 3) x = true) ∧
      (rootKeyO w0 = some 3 → Rec.delete_tree w0 3 = Tree.nil) ∧
      Iter.delete_tree w0 3 = Rec.delete_tree w0 3) :=
  ⟨by decide, by decide, C7_delete_tree_branch w0 3 (by decide) (by decide)⟩

theorem C8_missing_key_noop_witness :
    Rec.contains w0 42 = false ∧
    (Rec.delete w0 42 = w0 ∧
      Rec.delete_tree w0 42 = w0 ∧
      Rec.remove_tree w0 42 = (w0, Tree.nil) ∧
      is_empty (Rec.remove_tree w0 42).2 = true ∧
      Iter.delete w0 42 = w0 ∧
      Iter.delete_tree w0 42 = w0 ∧
      Iter.remove_tree w0 42 = (w0, Tree.nil)) :=
  ⟨by decide, C8_missing_key_noop w0 42 (by decide)⟩

theorem C10_traversal_lookup_total_witness :
    BSTb w0 = true ∧
    (((Rec.preorder_iter w0).length = size w0 ∧
        (Rec.preorder_iter w0).map Prod.fst = Rec.prev_order w0 ∧
        (Rec.prev_order w0).length = size w0 ∧
        ∀ p ∈ Rec.preorder_iter w0, Rec.get_pair w0 p.1 = some p) ∧
      ((Rec.inorder_iter w0).length = size w0 ∧
        (Rec.inorder_iter w0).map Prod.fst = Rec.in_order w0 ∧
        (Rec.in_order w0).length = size w0 ∧
        ∀ p ∈ Rec.inorder_iter w0, Rec.get_pair w0 p.1 = some p) ∧
      ((Rec.postorder_iter w0).length = size w0 ∧
        (Rec.postorder_iter w0).map Prod.fst = Rec.post_order w0 ∧
        (Rec.post_order w0).length = size w0 ∧
        ∀ p ∈ Rec.postorder_iter w0, Rec.get_pair w0 p.1 = some p) ∧
      ((Rec.levelorder_iter w0).length = size w0 ∧
        (Rec.levelorder_iter w0).map Prod.fst = level_order w0 ∧
        (level_order w0).length = size w0 ∧
        ∀ p ∈ Rec.levelorder_iter w0, Rec.get_pair w0 p.1 = some p) ∧
      Iter.preorder_iter w0 = Rec.preorder_iter w0 ∧
      Iter.inorder_iter w0 = Rec.inorder_iter w0 ∧
      Iter.postorder_iter w0 = Rec.postorder_iter w0 ∧
      Iter.levelorder_iter w0 = Rec.levelorder_iter w0) :=
  ⟨by decide, C10_traversal_lookup_total w0 (by decide)⟩

end AnOkBstree

